import Mathlib

/-!
Verification of the breakpoint and stepping core of `Lib/bdb.py` (pdb-clone).

The Python source is shallowly embedded: code objects become an inductive
tree, the per-module breakpoint registry and the by-number table become
association lists, stateful methods become explicit state-passing
functions.  Filesystem-dependent pieces (`canonic`, `linecache`, the
tokenizer behind `functions_firstlno`, `eval` of condition strings) are
modeled at their interface boundary: module sources come from an
environment mapping a canonical filename to a compiled code tree plus a
function-name table, and condition evaluation is a capability returning
either a raise or a truthiness value.
-/

set_option maxHeartbeats 1600000

namespace PdbClone

/-! ### Small list helpers (Python dict / list operations) -/

/-- Python dict lookup `d[k]` (as an option) on an association list. -/
def dlookup {α β : Type} [BEq α] (l : List (α × β)) (k : α) : Option β :=
  (l.find? (fun p => p.1 == k)).map Prod.snd

/-- Python dict assignment `d[k] = v`: update the entry in place when the key
is present, append it otherwise. -/
def dinsert {α β : Type} [BEq α] (l : List (α × β)) (k : α) (v : β) : List (α × β) :=
  if l.any (fun p => p.1 == k) then
    l.map (fun p => if p.1 == k then (k, v) else p)
  else l ++ [(k, v)]

/-- Python dict deletion `del d[k]`. -/
def derase {α β : Type} [BEq α] (l : List (α × β)) (k : α) : List (α × β) :=
  l.filter (fun p => !(p.1 == k))

/-- Python `bisect.bisect` (bisect_right) on a sorted list: the number of
leading elements that are `≤ x`. -/
def bisect (l : List Nat) (x : Nat) : Nat :=
  (l.takeWhile (fun y => decide (y ≤ x))).length

theorem bisect_spec (l : List Nat) (x : Nat) :
    bisect l x < l.length →
      x < l.getD (bisect l x) 0 ∧ l.getD (bisect l x) 0 ∈ l := by
  induction l with
  | nil => intro h; simp [bisect] at h
  | cons a t ih =>
    intro h
    by_cases hax : a ≤ x
    · have hb : bisect (a :: t) x = bisect t x + 1 := by
        simp [bisect, List.takeWhile, hax]
      rw [hb] at h ⊢
      simp only [List.length_cons, Nat.add_lt_add_iff_right] at h
      have := ih h
      rw [List.getD_cons_succ]
      exact ⟨this.1, List.mem_cons_of_mem _ this.2⟩
    · have hb : bisect (a :: t) x = 0 := by
        simp [bisect, List.takeWhile, hax]
      rw [hb]
      simp [List.getD, Nat.lt_of_not_le hax]

theorem getLast?_mem {α : Type} : ∀ (l : List α) (a : α), l.getLast? = some a → a ∈ l := by
  intro l
  induction l with
  | nil => intro a h; simp at h
  | cons x t ih =>
    intro a h
    cases t with
    | nil => simp at h; simp [h]
    | cons y s =>
      rw [List.getLast?_cons_cons] at h
      exact List.mem_cons_of_mem x (ih a h)

/-! ### Code objects and `code_line_numbers` -/

/-- A compiled Python code object, with the fields `bdb.py` uses: the first
line number, `co_name`, the raw `co_lnotab` byte string and the code objects
among `co_consts`. -/
inductive Code : Type where
  | mk (co_firstlineno : Nat) (co_name : String) (co_lnotab : List Nat)
       (co_consts : List Code)

def Code.co_firstlineno : Code → Nat
  | .mk f _ _ _ => f

def Code.co_name : Code → String
  | .mk _ n _ _ => n

def Code.co_lnotab : Code → List Nat
  | .mk _ _ t _ => t

def Code.co_consts : Code → List Code
  | .mk _ _ _ c => c

/-- The `(line_incr[i], byte_incr[i+1])` pairs that `code_line_numbers`
iterates over: `zip(co_lnotab, chain(co_lnotab[1:], ['1']))` sliced
`[1::2]`.  The out-of-range sentinel is `ord('1') = 49`. -/
def lnotabPairsTail : List Nat → List (Nat × Nat)
  | [] => []
  | [x] => [(x, 49)]
  | x :: y :: rest => (x, y) :: lnotabPairsTail rest

def lnotabPairs : List Nat → List (Nat × Nat)
  | [] => []
  | _ :: t => lnotabPairsTail t

/-- The loop body of the `code_line_numbers` generator. -/
def clnGo (valid lno : Nat) : List (Nat × Nat) → List Nat
  | [] => []
  | (line_incr, byte_incr) :: rest =>
    let lno' := lno + line_incr
    if byte_incr = 0 then clnGo valid lno' rest
    else if lno' ≠ valid then lno' :: clnGo lno' lno' rest
    else clnGo valid lno' rest

/-- `code_line_numbers(code)`: the source line numbers of a code object,
derived from its lnotab (see Objects/lnotab_notes.txt). -/
def code_line_numbers (c : Code) : List Nat :=
  c.co_firstlineno :: clnGo c.co_firstlineno c.co_firstlineno (lnotabPairs c.co_lnotab)

/-! ### `BdbModule.get_actual_bp` -/

/-- The dict comprehension at the top of `_distance`: the code objects in
`co_consts` whose name does not start with `'<'`. -/
def subcodesOf (c : Code) : List Code :=
  c.co_consts.filter (fun s => !s.co_name.startsWith "<")

/-- `sorted(subcodes)`: the sorted distinct first line numbers of the
subcodes (the keys of the dict). -/
def subFlnos (c : Code) : List Nat :=
  List.insertionSort (· ≤ ·) ((subcodesOf c).map Code.co_firstlineno).dedup

/-- `subcodes[flno]`: dict lookup; with duplicate first line numbers the
last comprehension entry wins. -/
def subLookup (c : Code) (k : Nat) : Option Code :=
  ((subcodesOf c).filter (fun s => s.co_firstlineno == k)).getLast?

theorem subcodesOf_mem (c : Code) (sc : Code) (h : sc ∈ subcodesOf c) :
    sc ∈ c.co_consts :=
  List.mem_of_mem_filter h

theorem subLookup_mem_sub (c : Code) (k : Nat) (sc : Code)
    (h : subLookup c k = some sc) : sc ∈ subcodesOf c :=
  List.mem_of_mem_filter (getLast?_mem _ _ h)

theorem sizeOf_lt_of_mem_consts (c : Code) (sc : Code) (h : sc ∈ c.co_consts) :
    sizeOf sc < sizeOf c := by
  cases c with
  | mk f n t consts =>
    simp only [Code.co_consts] at h
    have := List.sizeOf_lt_of_mem h
    simp only [Code.mk.sizeOf_spec]
    omega

/-- Truthiness test of the Python variable `subcode_dist` (`None` or a
pair), followed by the comparison `subcode_dist[0] < dist`. -/
def sdLt : Option (Nat × Nat × Nat) → Nat → Bool
  | Option.none, _ => false
  | some sd, d => sd.1 < d

/-- `code_lnos` as computed in `_distance`: the sorted line numbers, with
the first one dropped at non-module level (do not stop at execution of
function definitions). -/
def effectiveLnos (c : Code) (module_level : Bool) : List Nat :=
  let code_lnos0 := List.insertionSort (· ≤ ·) (code_line_numbers c)
  if ¬module_level ∧ 1 < code_lnos0.length then code_lnos0.tail else code_lnos0

mutual

/-- `_distance(subcodes[k])`: recurse into the subcode whose first line is
`k` (`None` is unreachable: the key is always present in the dict). -/
def subcodeRecurse (lineno : Nat) (code : Code) (k : Nat) :
    Option (Nat × Nat × Nat) :=
  match hsub : subLookup code k with
  | some sc => pyDistance lineno sc false
  | Option.none => Option.none
termination_by 3 * sizeOf code
decreasing_by
  have := sizeOf_lt_of_mem_consts _ _
    (subcodesOf_mem _ _ (subLookup_mem_sub _ _ _ (by assumption)))
  omega

/-- The `subcode_dist` computation at the top of `_distance`: the distance
within the subcode whose first line is the last one `≤ lineno`, if any. -/
def subcodeDist (lineno : Nat) (code : Code) : Option (Nat × Nat × Nat) :=
  if bisect (subFlnos code) lineno ≠ 0 then
    subcodeRecurse lineno code
      ((subFlnos code).getD (bisect (subFlnos code) lineno - 1) 0)
  else Option.none
termination_by 3 * sizeOf code + 1
decreasing_by omega

/-- The inner function `_distance` of `BdbModule.get_actual_bp`: the
shortest distance to the next valid statement at or after `lineno`,
returning `(distance, (code first line, actual line))`, or `None`. -/
def pyDistance (lineno : Nat) (code : Code) (module_level : Bool) :
    Option (Nat × Nat × Nat) :=
  let flnos := subFlnos code
  let subcode_dist := subcodeDist lineno code
  let code_lnos := effectiveLnos code module_level
  if lineno ∈ code_lnos ∧ lineno ∉ flnos then
    some (0, code.co_firstlineno, lineno)
  else
    let idx2 := bisect code_lnos lineno
    if idx2 = code_lnos.length then subcode_dist
    else
      let actual := code_lnos.getD idx2 0
      let dist := actual - lineno
      if sdLt subcode_dist dist then subcode_dist
      else if actual ∉ flnos then some (dist, code.co_firstlineno, actual)
      else subcodeRecurse lineno code actual
termination_by 3 * sizeOf code + 2
decreasing_by
  · omega
  · omega

end

/-- `BdbModule.get_actual_bp(lineno)`: `self.code` is `None` when the module
failed to load. -/
def get_actual_bp (code : Option Code) (lineno : Nat) :
    Except String (Nat × Nat) :=
  match code with
  | Option.none => Except.error "line is after the last valid statement"
  | some c =>
    match pyDistance lineno c true with
    | some (_, addr) => Except.ok addr
    | Option.none => Except.error "line is after the last valid statement"

/-- All (possibly nested) code units of a module, root included. -/
def allUnits (c : Code) : List Code :=
  c :: ((subcodesOf c).attach.map (fun x => allUnits x.1)).flatten
termination_by sizeOf c
decreasing_by
  exact sizeOf_lt_of_mem_consts _ _ (subcodesOf_mem _ _ x.2)

theorem self_mem_allUnits (c : Code) : c ∈ allUnits c := by
  rw [allUnits]; exact List.mem_cons_self _ _

theorem allUnits_sub (c sc : Code) (hsc : sc ∈ subcodesOf c) :
    ∀ d ∈ allUnits sc, d ∈ allUnits c := by
  intro d hd
  rw [allUnits]
  refine List.mem_cons_of_mem _ (List.mem_flatten.2 ⟨allUnits sc, ?_, hd⟩)
  exact List.mem_map.2 ⟨⟨sc, hsc⟩, List.mem_attach _ _, rfl⟩

theorem tail_sub {α : Type} (l : List α) : ∀ x ∈ l.tail, x ∈ l := by
  cases l with
  | nil => intro x hx; simp at hx
  | cons a t => intro x hx; exact List.mem_cons_of_mem _ hx

theorem mem_of_mem_sortLnos (c : Code) (x : Nat)
    (h : x ∈ List.insertionSort (· ≤ ·) (code_line_numbers c)) :
    x ∈ code_line_numbers c :=
  (List.perm_insertionSort _ _).mem_iff.1 h

theorem bisect_le_length (l : List Nat) (x : Nat) : bisect l x ≤ l.length := by
  unfold bisect
  exact (List.takeWhile_sublist _).length_le

theorem mem_of_mem_effectiveLnos (c : Code) (ml : Bool) (x : Nat)
    (h : x ∈ effectiveLnos c ml) : x ∈ code_line_numbers c := by
  rw [effectiveLnos] at h
  split at h
  · exact mem_of_mem_sortLnos _ _ (tail_sub _ _ h)
  · exact mem_of_mem_sortLnos _ _ h

/-- The resolved address is at or after the requested line, and its line is
an executable line of the unit whose first line is also returned. -/
def ResolvesOk (lineno : Nat) (code : Code) (f a : Nat) : Prop :=
  lineno ≤ a ∧ ∃ c ∈ allUnits code, f = c.co_firstlineno ∧ a ∈ code_line_numbers c

/-- Soundness of `_distance` and of its two subcode helpers, by strong
induction on the size of the code tree. -/
theorem pyDistance_sound_all (lineno : Nat) :
    ∀ (N : Nat) (code : Code), sizeOf code < N →
      (∀ k d f a, subcodeRecurse lineno code k = some (d, f, a) →
        ResolvesOk lineno code f a) ∧
      (∀ d f a, subcodeDist lineno code = some (d, f, a) →
        ResolvesOk lineno code f a) ∧
      (∀ ml d f a, pyDistance lineno code ml = some (d, f, a) →
        ResolvesOk lineno code f a) := by
  intro N
  induction N with
  | zero => intro code h; omega
  | succ N ih =>
    intro code hsz
    have hR : ∀ k d f a, subcodeRecurse lineno code k = some (d, f, a) →
        ResolvesOk lineno code f a := by
      intro k d f a h
      rw [subcodeRecurse] at h
      split at h
      · rename_i sc heq
        have hmem := subLookup_mem_sub _ _ _ heq
        have hlt : sizeOf sc < N :=
          Nat.lt_of_lt_of_le (sizeOf_lt_of_mem_consts _ _ (subcodesOf_mem _ _ hmem))
            (Nat.lt_succ_iff.1 hsz)
        obtain ⟨hla, c, hc, hf, hin⟩ := (ih sc hlt).2.2 false d f a h
        exact ⟨hla, c, allUnits_sub _ _ hmem c hc, hf, hin⟩
      · exact absurd h (by simp)
    have hD : ∀ d f a, subcodeDist lineno code = some (d, f, a) →
        ResolvesOk lineno code f a := by
      intro d f a h
      rw [subcodeDist] at h
      split at h
      · exact hR _ _ _ _ h
      · exact absurd h (by simp)
    refine ⟨hR, hD, ?_⟩
    intro ml d f a h
    rw [pyDistance] at h
    simp only [] at h
    split at h
    · -- exact statement line match
      rename_i hcond
      simp only [Option.some.injEq, Prod.mk.injEq] at h
      obtain ⟨rfl, rfl, rfl⟩ := h
      exact ⟨le_refl _, code, self_mem_allUnits code, rfl,
        mem_of_mem_effectiveLnos _ _ _ hcond.1⟩
    · split at h
      · -- lineno greater than all line numbers of this code
        exact hD _ _ _ h
      · rename_i hlen
        split at h
        · -- the subcode is strictly closer
          exact hD _ _ _ h
        · split at h
          · -- next statement line of this code, not a subcode first line
            have hblt := Nat.lt_of_le_of_ne (bisect_le_length _ _) hlen
            have hspec := bisect_spec (effectiveLnos code ml) lineno hblt
            simp only [Option.some.injEq, Prod.mk.injEq] at h
            obtain ⟨rfl, rfl, rfl⟩ := h
            exact ⟨Nat.le_of_lt hspec.1, code, self_mem_allUnits code, rfl,
              mem_of_mem_effectiveLnos _ _ _ hspec.2⟩
          · -- next statement line is a subcode first line: recurse into it
            exact hR _ _ _ _ h

/-! ### C2: `Bdb.stop_here`, with `fnmatch`-based skip patterns -/

/-- One character-class alternative of a glob pattern: literal characters
and `a-b` ranges, as the class body is spliced into a regex class (a `-`
first or last is literal). -/
def classMatch : List Char → Char → Bool
  | [], _ => false
  | [x], c => x == c
  | x :: '-' :: y :: rest, c => (x ≤ c && c ≤ y) || classMatch rest c
  | x :: rest, c => x == c || classMatch rest c

/-- Scan for the closing `]` of a character class, returning the class body
so far and the remaining pattern. -/
def splitAtRBracket : List Char → Option (List Char × List Char)
  | [] => Option.none
  | ']' :: r => some ([], r)
  | c :: r => (splitAtRBracket r).map (fun m => (c :: m.1, m.2))

/-- `fnmatch.translate`'s bracket scan: after `[`, a leading `!` and then a
leading `]` are part of the class body; the body then runs to the next `]`.
`none` means the class is unterminated and `[` is a literal. -/
def classEnd (l : List Char) : Option (List Char × List Char) :=
  let skip1 : Nat := if l.take 1 = ['!'] then 1 else 0
  let skip2 : Nat := if (l.drop skip1).take 1 = [']'] then 1 else 0
  (splitAtRBracket (l.drop (skip1 + skip2))).map
    (fun m => (l.take (skip1 + skip2) ++ m.1, m.2))

theorem splitAtRBracket_length : ∀ (l : List Char) (m : List Char × List Char),
    splitAtRBracket l = some m → m.2.length < l.length := by
  intro l
  induction l with
  | nil => intro m h; simp [splitAtRBracket] at h
  | cons c r ih =>
    intro m h
    by_cases hc : c = ']'
    · subst hc
      simp only [splitAtRBracket, Option.some.injEq] at h
      subst h
      simp
    · rw [splitAtRBracket] at h
      · simp only [Option.map_eq_some'] at h
        obtain ⟨m', hm', rfl⟩ := h
        have := ih m' hm'
        simp only [List.length_cons]
        omega
      · exact fun hcc => hc hcc

/-- Glob matching over character lists, with the semantics of
`fnmatch.translate` + whole-string regex match: `*` matches any sequence
(newlines included under `(?ms)`), `?` any character, `[...]`/`[!...]`
character classes, everything else literally. -/
def gmatch (p : List Char) (s : List Char) : Bool :=
  match p, s with
  | [], [] => true
  | [], _ :: _ => false
  | '*' :: ps, s =>
    gmatch ps s ||
      (match s with
       | [] => false
       | _ :: s' => gmatch ('*' :: ps) s')
  | '?' :: ps, s =>
    (match s with
     | [] => false
     | _ :: s' => gmatch ps s')
  | '[' :: ps, s =>
    (match classEnd ps with
     | Option.none =>
       -- unterminated class: '[' is a literal
       (match s with
        | '[' :: s' => gmatch ps s'
        | _ => false)
     | some (stuff, rest) =>
       (match s with
        | [] => false
        | c :: s' =>
          (match stuff with
           | '!' :: stuff' => !classMatch stuff' c
           | _ => classMatch stuff c) && gmatch rest s'))
  | ch :: ps, s =>
    (match s with
     | c :: s' => ch == c && gmatch ps s'
     | [] => false)
termination_by (s.length, p.length)

/-- `fnmatch.fnmatch(name, pattern)` on a case-sensitive posix filesystem
(`os.path.normcase` is the identity there). -/
def fnmatch (name pat : String) : Bool :=
  gmatch pat.toList name.toList

/-- `Bdb.is_skipped_module`: does the module name match any pattern of the
skip set? -/
def is_skipped_module (skip : List String) (module_name : String) : Bool :=
  skip.any (fun pattern => fnmatch module_name pattern)

/-- A frame as seen by `stop_here`: an identity (`is` comparisons), the
current line, and the module name `frame.f_globals['__name__']` (assumed
present). -/
structure Frame where
  fid : Nat
  f_lineno : Int
  modname : String

/-- Truthiness of `self.skip` (`None` or a set of patterns). -/
def skipTruthy : Option (List String) → Bool
  | Option.none => false
  | some l => !l.isEmpty

/-- `Bdb.stop_here(frame)`.  `stopframe_lno` is the `(stopframe, lineno)`
stepping state, with the stop frame given by identity. -/
def stop_here (skip : Option (List String)) (stopframe_lno : Option Nat × Int)
    (frame : Frame) : Bool :=
  if skipTruthy skip && is_skipped_module (skip.getD []) frame.modname then
    false
  else
    let stopframe := stopframe_lno.1
    let lineno := stopframe_lno.2
    if stopframe == some frame.fid || stopframe == Option.none then
      if lineno == -1 then false
      else decide (lineno ≤ frame.f_lineno)
    else false

/-! ### C3: `Breakpoint.process_hit_event` -/

/-- Result of evaluating a condition expression in the hit frame's scope:
either the evaluation raises, or it returns a value of the given
truthiness.  This is the `eval` capability of the host. -/
inductive EvalResult : Type where
  | raises
  | val (truthy : Bool)
deriving DecidableEq, Repr

/-- A `Breakpoint` instance (the mutable attributes set by `__init__`). -/
structure BP where
  number : Nat
  file : String
  line : Nat
  actual_bp : Nat × Nat
  temporary : Bool
  cond : Option String
  enabled : Bool
  ignore : Nat
  hits : Nat
deriving DecidableEq, Repr

/-- Truthiness of `self.cond` (`None` or a source string; the empty string
is falsy). -/
def condTruthy : Option String → Bool
  | Option.none => false
  | some s => !(s == "")

/-- The tail of `process_hit_event` after the condition check: consume the
ignore count or stop. -/
def ignoreStep (bp : BP) : BP × Bool × Bool :=
  if 0 < bp.ignore then ({ bp with ignore := bp.ignore - 1 }, false, false)
  else (bp, true, true)

theorem ignoreStep_hits (b : BP) : (ignoreStep b).1.hits = b.hits := by
  rw [ignoreStep]; split <;> rfl

theorem ignoreStep_pos (b : BP) (h : 0 < b.ignore) :
    ignoreStep b = ({ b with ignore := b.ignore - 1 }, false, false) := by
  rw [ignoreStep, if_pos h]

theorem ignoreStep_zero (b : BP) (h : b.ignore = 0) :
    ignoreStep b = (b, true, true) := by
  rw [ignoreStep, if_neg (by omega)]

/-- `Breakpoint.process_hit_event(frame)`: returns the updated breakpoint
together with `(stop_state, delete_temporary)`. -/
def process_hit_event (bp : BP) (ev : String → EvalResult) : BP × Bool × Bool :=
  if !bp.enabled then (bp, false, false)
  else
    -- Count every hit when breakpoint is enabled.
    let bp1 := { bp with hits := bp.hits + 1 }
    if condTruthy bp1.cond then
      match ev (bp1.cond.getD "") with
      | EvalResult.raises =>
        -- If the breakpoint condition evaluation fails, the most
        -- conservative thing is to stop on the breakpoint.  Don't delete
        -- temporary, as another hint to the user.
        (bp1, true, false)
      | EvalResult.val b => if !b then (bp1, false, false) else ignoreStep bp1
    else ignoreStep bp1

/-- C2: `stop_here(frame)` returns false when the frame's module name
matches a glob pattern in the configured skip set; otherwise it returns
true if and only if (the stepping-state stopframe is None or the frame is
the stopframe) and the stepping-state lineno is not -1 and the frame's
current line number is at least that lineno. -/
theorem stop_here_char (skip : Option (List String)) (sl : Option Nat × Int)
    (fr : Frame) :
    stop_here skip sl fr = true ↔
      ¬(skipTruthy skip = true ∧
          is_skipped_module (skip.getD []) fr.modname = true) ∧
        (sl.1 = Option.none ∨ sl.1 = some fr.fid) ∧ sl.2 ≠ -1 ∧
        sl.2 ≤ fr.f_lineno := by
  rcases sl with ⟨sf, l⟩
  rw [stop_here]
  by_cases hskip :
      (skipTruthy skip && is_skipped_module (skip.getD []) fr.modname) = true
  · rw [if_pos hskip]
    simp only [Bool.and_eq_true] at hskip
    simp [hskip]
  · rw [if_neg hskip]
    simp only [Bool.and_eq_true] at hskip
    by_cases hsf : (sf == some fr.fid || sf == Option.none) = true
    · rw [if_pos hsf]
      simp only [Bool.or_eq_true, beq_iff_eq] at hsf
      by_cases hl : (l == (-1 : Int)) = true
      · rw [if_pos hl]
        simp only [beq_iff_eq] at hl
        simp [hl, hskip]
      · rw [if_neg hl]
        simp only [beq_iff_eq] at hl
        simp only [decide_eq_true_eq]
        constructor
        · intro hle
          exact ⟨hskip, Or.symm hsf, hl, hle⟩
        · intro hh
          exact hh.2.2.2
    · rw [if_neg hsf]
      simp only [Bool.or_eq_true, beq_iff_eq] at hsf
      push_neg at hsf
      simp only [Bool.false_eq_true, false_iff]
      intro hh
      rcases hh.2.1 with h1 | h1
      · exact hsf.2 h1
      · exact hsf.1 h1

/-- C3: `process_hit_event` returns `(false, false)` and leaves the hits
counter unchanged when the breakpoint is disabled; otherwise it increments
hits by exactly one and then: if a condition is set and its evaluation
raises, it returns `(true, false)`; if the condition evaluates to a false
value, `(false, false)`; else if `ignore > 0` it decrements `ignore` and
returns `(false, false)`; otherwise `(true, true)`. -/
theorem process_hit_event_char (bp : BP) (ev : String → EvalResult) :
    (bp.enabled = false → process_hit_event bp ev = (bp, false, false)) ∧
    (bp.enabled = true →
      (process_hit_event bp ev).1.hits = bp.hits + 1 ∧
      (∀ c, bp.cond = some c → c ≠ "" → ev c = EvalResult.raises →
        (process_hit_event bp ev).2 = (true, false)) ∧
      (∀ c, bp.cond = some c → c ≠ "" → ev c = EvalResult.val false →
        (process_hit_event bp ev).2 = (false, false)) ∧
      ((condTruthy bp.cond = false ∨
          (∃ c, bp.cond = some c ∧ ev c = EvalResult.val true)) →
        (0 < bp.ignore →
          (process_hit_event bp ev).1.ignore = bp.ignore - 1 ∧
          (process_hit_event bp ev).2 = (false, false)) ∧
        (bp.ignore = 0 → (process_hit_event bp ev).2 = (true, true)))) := by
  constructor
  · intro hen
    simp [process_hit_event, hen]
  · intro hen
    have hcondd : ∀ (o : Option String),
        condTruthy o = true ↔ ∃ s, o = some s ∧ s ≠ "" := by
      intro o; cases o <;> simp [condTruthy]
    by_cases hc : condTruthy bp.cond = true
    · obtain ⟨c, hco, hcne⟩ := (hcondd _).1 hc
      have hc' : condTruthy (some c) = true := hco ▸ hc
      cases hev : ev c with
      | raises =>
        have hunf : process_hit_event bp ev =
            ({ bp with hits := bp.hits + 1 }, true, false) := by
          simp [process_hit_event, hen, hco, hc', hev]
        rw [hunf]
        refine ⟨rfl, ?_, ?_, ?_⟩
        · intro c' _ _ _; rfl
        · intro c' hc2 _ hev'
          rw [hco] at hc2; injection hc2 with hcc; subst hcc
          rw [hev] at hev'; cases hev'
        · intro hdisj
          rcases hdisj with hf | ⟨c', hc2, hev'⟩
          · rw [hf] at hc; cases hc
          · rw [hco] at hc2; injection hc2 with hcc; subst hcc
            rw [hev] at hev'; cases hev'
      | val b =>
        cases b with
        | false =>
          have hunf : process_hit_event bp ev =
              ({ bp with hits := bp.hits + 1 }, false, false) := by
            simp [process_hit_event, hen, hco, hc', hev]
          rw [hunf]
          refine ⟨rfl, ?_, ?_, ?_⟩
          · intro c' hc2 _ hev'
            rw [hco] at hc2; injection hc2 with hcc; subst hcc
            rw [hev] at hev'; cases hev'
          · intro c' _ _ _; rfl
          · intro hdisj
            rcases hdisj with hf | ⟨c', hc2, hev'⟩
            · rw [hf] at hc; cases hc
            · rw [hco] at hc2; injection hc2 with hcc; subst hcc
              rw [hev] at hev'; cases hev'
        | true =>
          have hunf : process_hit_event bp ev =
              ignoreStep { bp with hits := bp.hits + 1 } := by
            simp [process_hit_event, hen, hco, hc', hev]
          rw [hunf]
          refine ⟨ignoreStep_hits _, ?_, ?_, ?_⟩
          · intro c' hc2 _ hev'
            rw [hco] at hc2; injection hc2 with hcc; subst hcc
            rw [hev] at hev'; cases hev'
          · intro c' hc2 _ hev'
            rw [hco] at hc2; injection hc2 with hcc; subst hcc
            rw [hev] at hev'; cases hev'
          · intro _
            constructor
            · intro hig
              rw [ignoreStep_pos { bp with hits := bp.hits + 1 } hig]
              exact ⟨rfl, rfl⟩
            · intro hig
              rw [ignoreStep_zero { bp with hits := bp.hits + 1 } hig]
    · have hunf : process_hit_event bp ev =
          ignoreStep { bp with hits := bp.hits + 1 } := by
        simp [process_hit_event, hen, hc]
      rw [hunf]
      refine ⟨ignoreStep_hits _, ?_, ?_, ?_⟩
      · intro c' hc2 hne _
        exact absurd ((hcondd _).2 ⟨c', hc2, hne⟩) hc
      · intro c' hc2 hne _
        exact absurd ((hcondd _).2 ⟨c', hc2, hne⟩) hc
      · intro _
        constructor
        · intro hig
          rw [ignoreStep_pos { bp with hits := bp.hits + 1 } hig]
          exact ⟨rfl, rfl⟩
        · intro hig
          rw [ignoreStep_zero { bp with hits := bp.hits + 1 } hig]

/-! ### The breakpoint state: by-number table and per-module registry

A Python `Breakpoint` object is aliased from `Breakpoint.bpbynumber` and
from its module's `breakpts` dictionary.  The model stores the record in
the by-number table and keys the registry buckets by breakpoint number
(object identity = the unique number). -/

/-- A `ModuleBreakpoints` instance: the compiled module code, its
`functions_firstlno` table, and `breakpts` mapping a code first line to a
map from actual line to the breakpoint numbers set there. -/
structure ModBpts where
  code : Code
  funcs : List (String × Nat)
  breakpts : List (Nat × List (Nat × List Nat))

/-- The debugger's breakpoint state: `Breakpoint.next`,
`Breakpoint.bpbynumber` (index 0 is the initial `None`), and
`Bdb.breakpoints` keyed by canonical filename. -/
structure DbgState where
  next : Nat
  bpbynumber : List (Option BP)
  breakpoints : List (String × ModBpts)

/-- `bpbynumber[n]` for a non-negative in-range index (`None` otherwise). -/
def slotGet (l : List (Option BP)) (n : Nat) : Option BP :=
  l.getD n Option.none

/-- `ModuleBreakpoints.add_breakpoint`'s registry update (after
`get_actual_bp` has resolved the address): create the missing nested
dictionaries and append the breakpoint. -/
def add_breakpoint_reg (bpts : List (Nat × List (Nat × List Nat)))
    (addr : Nat × Nat) (n : Nat) : List (Nat × List (Nat × List Nat)) :=
  let line_bps := (dlookup bpts addr.1).getD []
  let bplist := (dlookup line_bps addr.2).getD []
  dinsert bpts addr.1 (dinsert line_bps addr.2 (bplist ++ [n]))

/-- `ModuleBreakpoints.delete_breakpoint`: remove the breakpoint from its
bucket and drop dictionaries that became empty; a missing key or a missing
list entry (possible after a reset) leaves the registry unchanged. -/
def delete_breakpoint (bpts : List (Nat × List (Nat × List Nat)))
    (addr : Nat × Nat) (n : Nat) : List (Nat × List (Nat × List Nat)) :=
  match dlookup bpts addr.1 with
  | Option.none => bpts
  | some line_bps =>
    match dlookup line_bps addr.2 with
    | Option.none => bpts
    | some bplist =>
      if n ∈ bplist then
        let bplist' := bplist.erase n
        let line_bps' := if bplist' = [] then derase line_bps addr.2
          else dinsert line_bps addr.2 bplist'
        if line_bps' = [] then derase bpts addr.1
        else dinsert bpts addr.1 line_bps'
      else bpts

/-- `Breakpoint.deleteMe`: when the slot is still live, null it and remove
the breakpoint from its module's registry. -/
def deleteMe (s : DbgState) (n : Nat) : DbgState :=
  match slotGet s.bpbynumber n with
  | Option.none => s
  | some bp =>
    let s1 : DbgState := { s with bpbynumber := s.bpbynumber.set n Option.none }
    match dlookup s1.breakpoints bp.file with
    | Option.none => s1
    | some m =>
      let m' : ModBpts :=
        { m with breakpts := delete_breakpoint m.breakpts bp.actual_bp n }
      { s1 with breakpoints := dinsert s1.breakpoints bp.file m' }

/-! ### `Bdb.set_break` -/

/-- The loadable modules: for each canonical filename, `none` when reading
or compiling the source fails (`BdbSourceError` / `BdbSyntaxError`),
otherwise the compiled top-level code and the `functions_firstlno` table
(the linecache and tokenizer are external to the model). -/
def ModuleEnv : Type := List (String × Option (Code × List (String × Nat)))

/-- `BdbModule.get_func_lno`. -/
def get_func_lno (funcs : List (String × Nat)) (funcname : String) :
    Except String Nat :=
  match dlookup funcs funcname with
  | some lno => Except.ok lno
  | Option.none => Except.error "function not found"

/-- Truthiness of the `funcname` argument. -/
def funcTruthy : Option String → Bool
  | Option.none => false
  | some s => !(s == "")

/-- The body of `Bdb.set_break` once the module's breakpoints object is at
hand: resolve `funcname`, resolve the line, then atomically create the
`Breakpoint` (consume the next number, append to the by-number table,
insert into the registry) and bind the module under its filename.  The two
resolution steps can raise; in Python they run before any mutation. -/
def set_break_with (s : DbgState) (filename : String) (m : ModBpts)
    (lineno : Nat) (temporary : Bool) (cond : Option String)
    (funcname : Option String) : DbgState × Except String Nat :=
  let lnoE := if funcTruthy funcname then get_func_lno m.funcs (funcname.getD "")
    else Except.ok lineno
  match lnoE with
  | Except.error e => (s, Except.error e)
  | Except.ok lno =>
    match get_actual_bp (some m.code) lno with
    | Except.error e => (s, Except.error e)
    | Except.ok addr =>
      let n := s.next
      let bp : BP := ⟨n, filename, lno, addr, temporary, cond, true, 0, 0⟩
      let m' := { m with breakpts := add_breakpoint_reg m.breakpts addr n }
      ({ next := n + 1,
         bpbynumber := s.bpbynumber ++ [some bp],
         breakpoints := dinsert s.breakpoints filename m' },
       Except.ok n)

/-- `Bdb.set_break(fname, lineno, temporary, cond, funcname)`, returning the
new breakpoint's number.  `canonic` and the `all_pathnames` relative-path
aliases depend on the filesystem; the model keys modules by the canonical
name directly.  The walk that installs the trace function on matching
frames of the current stack does not touch the breakpoint state and is
modeled with the stepping state elsewhere. -/
def set_break (env : ModuleEnv) (s : DbgState) (filename : String)
    (lineno : Nat) (temporary : Bool) (cond : Option String)
    (funcname : Option String) : DbgState × Except String Nat :=
  match dlookup s.breakpoints filename with
  | some m => set_break_with s filename m lineno temporary cond funcname
  | Option.none =>
    match dlookup env filename with
    | some (some (code, funcs)) =>
      set_break_with s filename ⟨code, funcs, []⟩ lineno temporary cond funcname
    | some Option.none => (s, Except.error "syntax error in module")
    | Option.none => (s, Except.error "no lines in module")

/-! ### `Bdb.get_bpbynumber` and `Bdb.clear_bpbynumber` -/

/-- The argument of `get_bpbynumber`: `None` or a string. -/
inductive PyArg : Type where
  | noneArg
  | str (s : String)
deriving DecidableEq, Repr

/-- Truthiness of the argument (`not arg`). -/
def argFalsy : PyArg → Bool
  | PyArg.noneArg => true
  | PyArg.str s => s == ""

def digitsToNat (l : List Char) : Nat :=
  l.foldl (fun acc c => acc * 10 + (c.toNat - '0'.toNat)) 0

/-- Python `int(str)`: optional surrounding whitespace, an optional sign,
then at least one digit. -/
def pyInt (s : String) : Option Int :=
  let l := ((s.toList.dropWhile (fun c => c.isWhitespace)).reverse.dropWhile
      (fun c => c.isWhitespace)).reverse
  match l with
  | '+' :: ds =>
    if ds ≠ [] ∧ ds.all Char.isDigit then some (digitsToNat ds) else Option.none
  | '-' :: ds =>
    if ds ≠ [] ∧ ds.all Char.isDigit then some (-(digitsToNat ds : Int))
    else Option.none
  | ds =>
    if ds ≠ [] ∧ ds.all Char.isDigit then some (digitsToNat ds) else Option.none

/-- Python's wrapped list index: negative indices count from the end. -/
def wrappedIdx (len : Nat) (i : Int) : Int := if i < 0 then i + len else i

/-- Python list indexing `l[i]`: negative indices count from the end;
`none` is an `IndexError`. -/
def pyIndex {α : Type} (l : List α) (i : Int) : Option α :=
  let j := wrappedIdx l.length i
  if 0 ≤ j ∧ j < l.length then l[j.toNat]? else Option.none

/-- `Bdb.get_bpbynumber(arg)`; `Except.error` is the raised `ValueError`'s
message. -/
def get_bpbynumber (s : DbgState) (arg : PyArg) : Except String BP :=
  if argFalsy arg then Except.error "Breakpoint number expected"
  else
    match arg with
    | PyArg.noneArg => Except.error "Breakpoint number expected"
    | PyArg.str a =>
      match pyInt a with
      | Option.none => Except.error ("Non-numeric breakpoint number " ++ a)
      | some number =>
        match pyIndex s.bpbynumber number with
        | Option.none => Except.error "Breakpoint number out of range"
        | some Option.none => Except.error "Breakpoint already deleted"
        | some (some bp) => Except.ok bp

/-- `Bdb.clear_bpbynumber(arg)`: reports `get_bpbynumber` failures by
return value, otherwise deletes the breakpoint. -/
def clear_bpbynumber (s : DbgState) (arg : PyArg) : DbgState × Option String :=
  match get_bpbynumber s arg with
  | Except.error err => (s, some err)
  | Except.ok bp => (deleteMe s bp.number, Option.none)

/-! ### `Bdb.break_here` and `Bdb.has_breaks` -/

/-- The frame data `break_here` consults: `f_code.co_filename` (the
filesystem is taken case-sensitive, so the filename is used as is),
`f_code.co_firstlineno`, `f_lineno`, and the capability evaluating a
condition string in the frame's scope. -/
structure HitFrame where
  co_filename : String
  co_firstlineno : Nat
  f_lineno : Nat
  ev : String → EvalResult

/-- The list of breakpoint numbers registered at the frame's address
(empty at any missing dictionary level). -/
def bucketOf (s : DbgState) (fr : HitFrame) : List Nat :=
  match dlookup s.breakpoints fr.co_filename with
  | Option.none => []
  | some m =>
    match dlookup m.breakpts fr.co_firstlineno with
    | Option.none => []
    | some line_bps => (dlookup line_bps fr.f_lineno).getD []

/-- One iteration of `break_here`'s loop: process the hit on breakpoint
`n`, store the updated breakpoint, and extend the effective and temporary
lists.  A number whose slot is dead is skipped (under the registry/table
agreement invariant this does not happen). -/
def procStep (ev : String → EvalResult) (acc : DbgState × List Nat × List Nat)
    (n : Nat) : DbgState × List Nat × List Nat :=
  match slotGet acc.1.bpbynumber n with
  | Option.none => acc
  | some bp =>
    let r := process_hit_event bp ev
    let st : DbgState :=
      { acc.1 with bpbynumber := acc.1.bpbynumber.set n (some r.1) }
    if r.2.1 then
      (st, acc.2.1 ++ [n],
       if bp.temporary && r.2.2 then acc.2.2 ++ [n] else acc.2.2)
    else (st, acc.2.1, acc.2.2)

/-- `Bdb.break_here(frame)`: `none` when no breakpoint demands a stop
(missing dictionary levels included), otherwise the sorted effective
breakpoint numbers and the sorted temporaries to delete. -/
def break_here (s : DbgState) (fr : HitFrame) :
    DbgState × Option (List Nat × List Nat) :=
  let res := (bucketOf s fr).foldl (procStep fr.ev) (s, [], [])
  if res.2.1 ≠ [] then
    (res.1, some (List.insertionSort (· ≤ ·) res.2.1,
      List.insertionSort (· ≤ ·) res.2.2))
  else (res.1, Option.none)

/-- `Bdb.has_breaks`: is some module's `breakpts` dictionary non-empty? -/
def has_breaks (s : DbgState) : Bool :=
  s.breakpoints.any (fun p => !p.2.breakpts.isEmpty)

/-- Modelled from the spec: the user-interaction layer (`pdb`, not under
`src/`) receives `(breakpoint numbers, temporaries to delete)` through
`user_line` and deletes each reported temporary breakpoint.  (§6: "hits is
`(bpnums, temp_bpnums_to_clear)` when a breakpoint fired"; §3: "temporary
… deleted automatically after the first hit that passes all gating".) -/
def clear_reported_temporaries (s : DbgState) (temporaries : List Nat) :
    DbgState :=
  temporaries.foldl deleteMe s

/-! ### The stepping state (C6, C7) -/

/-- The tracing-related state of a `Bdb` instance: `stopframe_lno`, the
set of frames whose `f_trace` slot holds the local trace function, and
whether the global `sys.settrace` hook is installed. -/
structure StepBdb where
  stopframe_lno : Option Nat × Int
  traced : List Nat
  sysTrace : Bool
deriving DecidableEq, Repr

/-- The `while` loop of `_set_stopinfo`: walk the stack from the top frame;
keep `stopframe` when it is met (or when the stack runs out), replace it
with the bottom frame when that is met first. -/
def stopWalk (botframe : Option Nat) (sf : Nat) : List Nat → Nat
  | [] => sf
  | f :: rest =>
    if f = sf then sf
    else if botframe = some f then f
    else stopWalk botframe sf rest

/-- `Bdb._set_stopinfo(stopframe_lno)`.  `stack` is the current frame
stack from `topframe` along `f_back`; the final stop frame gets a trace
function. -/
def set_stopinfo (stack : List Nat) (botframe : Option Nat) (st : StepBdb)
    (stopframe_lno : Option Nat × Int) : StepBdb :=
  match stopframe_lno with
  | (Option.none, lineno) => { st with stopframe_lno := (Option.none, lineno) }
  | (some sf, lineno) =>
    let sf' := stopWalk botframe sf stack
    { st with stopframe_lno := (some sf', lineno),
              traced := if sf' ∈ st.traced then st.traced else sf' :: st.traced }

/-- `Bdb.set_until(frame, lineno=None)`: `frame` is passed as its identity
plus its current line. -/
def set_until (stack : List Nat) (botframe : Option Nat) (st : StepBdb)
    (fid : Nat) (f_lineno : Int) (lineno : Option Int) : StepBdb :=
  set_stopinfo stack botframe st (some fid, lineno.getD (f_lineno + 1))

/-- `Bdb.set_step()`. -/
def set_step (stack : List Nat) (botframe : Option Nat) (st : StepBdb) :
    StepBdb :=
  set_stopinfo stack botframe st (Option.none, 0)

/-- `Bdb.set_next(frame)`. -/
def set_next (stack : List Nat) (botframe : Option Nat) (st : StepBdb)
    (fid : Nat) : StepBdb :=
  set_stopinfo stack botframe st (some fid, 0)

/-- `Bdb.set_return(frame)`. -/
def set_return (stack : List Nat) (botframe : Option Nat) (st : StepBdb)
    (fid : Nat) : StepBdb :=
  set_stopinfo stack botframe st (some fid, -1)

/-- The prefix of the stack that `_stop_tracing`'s loop visits: from the
top frame down to and including the bottom frame. -/
def untilBot (botframe : Option Nat) : List Nat → List Nat
  | [] => []
  | f :: rest => if botframe = some f then [f] else f :: untilBot botframe rest

/-- `Bdb._stop_tracing`: remove the global trace hook and delete the
per-frame trace slots from the top frame down to the bottom frame. -/
def stop_tracing (stack : List Nat) (botframe : Option Nat) (st : StepBdb) :
    StepBdb :=
  { st with sysTrace := false,
            traced := st.traced.filter (fun f => f ∉ untilBot botframe stack) }

/-- `Bdb.set_continue()`: never stop except at breakpoints; with no
breakpoints left anywhere, run without debugger overhead. -/
def set_continue (stack : List Nat) (botframe : Option Nat) (dbg : DbgState)
    (st : StepBdb) : StepBdb :=
  let st1 := set_stopinfo stack botframe st (Option.none, -1)
  if !has_breaks dbg then stop_tracing stack botframe st1 else st1

/-! ### Association list lemmas -/

section DictLemmas

variable {α β : Type} [DecidableEq α]

theorem dlookup_mem (l : List (α × β)) (k : α) (v : β)
    (h : dlookup l k = some v) : (k, v) ∈ l := by
  induction l with
  | nil => simp [dlookup] at h
  | cons p t ih =>
    rw [dlookup, List.find?] at h
    by_cases hp : p.1 = k
    · simp only [hp, beq_self_eq_true, Option.map_some'] at h
      injection h with h
      subst h
      rw [← hp]
      exact List.mem_cons_self _ _
    · rw [beq_eq_false_iff_ne.2 hp] at h
      exact List.mem_cons_of_mem _ (ih h)

theorem dlookup_isSome_any (l : List (α × β)) (k : α) (v : β)
    (h : dlookup l k = some v) : l.any (fun p => p.1 == k) = true := by
  have := dlookup_mem l k v h
  exact List.any_eq_true.2 ⟨(k, v), this, by simp⟩

theorem mem_dlookup (l : List (α × β)) (k : α) (v : β)
    (hnd : (l.map Prod.fst).Nodup) (h : (k, v) ∈ l) : dlookup l k = some v := by
  induction l with
  | nil => simp at h
  | cons p t ih =>
    rw [List.map_cons, List.nodup_cons] at hnd
    rcases List.mem_cons.1 h with heq | hmem
    · subst heq
      simp [dlookup, List.find?]
    · have hne : p.1 ≠ k := by
        intro hk
        exact hnd.1 (hk ▸ (List.mem_map.2 ⟨(k, v), hmem, rfl⟩))
      rw [dlookup, List.find?, beq_eq_false_iff_ne.2 hne]
      exact ih hnd.2 hmem

theorem keys_unique (l : List (α × β)) (hnd : (l.map Prod.fst).Nodup)
    (p p' : α × β) (hp : p ∈ l) (hp' : p' ∈ l) (hk : p.1 = p'.1) : p = p' := by
  induction l with
  | nil => simp at hp
  | cons q t ih =>
    rw [List.map_cons, List.nodup_cons] at hnd
    rcases List.mem_cons.1 hp with h1 | h1 <;> rcases List.mem_cons.1 hp' with h2 | h2
    · rw [h1, h2]
    · exact absurd (List.mem_map.2 ⟨p', h2, (h1 ▸ hk).symm⟩) hnd.1
    · exact absurd (List.mem_map.2 ⟨p, h1, (h2 ▸ hk)⟩) hnd.1
    · exact ih hnd.2 h1 h2

theorem mem_derase (l : List (α × β)) (k : α) (p : α × β)
    (h : p ∈ derase l k) : p ∈ l ∧ p.1 ≠ k := by
  rw [derase] at h
  have := List.mem_filter.1 h
  refine ⟨this.1, ?_⟩
  have h2 := this.2
  simp only [Bool.not_eq_true'] at h2
  exact beq_eq_false_iff_ne.1 h2

theorem mem_derase_of (l : List (α × β)) (k : α) (p : α × β)
    (hp : p ∈ l) (hne : p.1 ≠ k) : p ∈ derase l k := by
  rw [derase]
  exact List.mem_filter.2 ⟨hp, by simp [beq_eq_false_iff_ne.2 hne]⟩

theorem derase_keys_sublist (l : List (α × β)) (k : α) :
    ((derase l k).map Prod.fst).Sublist (l.map Prod.fst) :=
  (List.filter_sublist l).map Prod.fst

theorem dinsert_keys_found (l : List (α × β)) (k : α) (v : β)
    (h : l.any (fun p => p.1 == k) = true) :
    (dinsert l k v).map Prod.fst = l.map Prod.fst := by
  rw [dinsert, if_pos h, List.map_map]
  apply List.map_congr_left
  intro p _
  by_cases hp : p.1 = k
  · simp [Function.comp, hp]
  · simp [Function.comp, beq_eq_false_iff_ne.2 hp]

theorem mem_dinsert_found_self (l : List (α × β)) (k : α) (v : β)
    (h : l.any (fun p => p.1 == k) = true) : (k, v) ∈ dinsert l k v := by
  rw [dinsert, if_pos h]
  obtain ⟨p, hp, hpk⟩ := List.any_eq_true.1 h
  refine List.mem_map.2 ⟨p, hp, ?_⟩
  simp [hpk]

theorem mem_dinsert_found_other (l : List (α × β)) (k : α) (v : β)
    (h : l.any (fun p => p.1 == k) = true) (p : α × β) (hp : p ∈ l)
    (hne : p.1 ≠ k) : p ∈ dinsert l k v := by
  rw [dinsert, if_pos h]
  refine List.mem_map.2 ⟨p, hp, ?_⟩
  simp [beq_eq_false_iff_ne.2 hne]

theorem mem_of_mem_dinsert_found (l : List (α × β)) (k : α) (v : β)
    (h : l.any (fun p => p.1 == k) = true) (p : α × β)
    (hp : p ∈ dinsert l k v) : (p ∈ l ∧ p.1 ≠ k) ∨ p = (k, v) := by
  rw [dinsert, if_pos h] at hp
  obtain ⟨q, hq, hpq⟩ := List.mem_map.1 hp
  by_cases hqk : q.1 = k
  · rw [beq_iff_eq.2 hqk] at hpq
    simp only [if_true] at hpq
    exact Or.inr hpq.symm
  · rw [beq_eq_false_iff_ne.2 hqk] at hpq
    simp only [Bool.false_eq_true, if_false] at hpq
    subst hpq
    exact Or.inl ⟨hq, hqk⟩

end DictLemmas

/-! ### Slot (by-number table) lemmas -/

theorem slotGet_lt_length (l : List (Option BP)) (n : Nat) (bp : BP)
    (h : slotGet l n = some bp) : n < l.length := by
  by_contra hge
  rw [slotGet, List.getD_eq_default] at h
  · cases h
  · omega

theorem slotGet_set_self (l : List (Option BP)) (n : Nat) (v : Option BP)
    (h : n < l.length) : slotGet (l.set n v) n = v := by
  induction l generalizing n with
  | nil => simp at h
  | cons a t ih =>
    cases n with
    | zero => rfl
    | succ m =>
      rw [List.set_cons_succ, slotGet, List.getD_cons_succ]
      exact ih m (by simpa using h)

theorem slotGet_set_ne (l : List (Option BP)) (n m : Nat) (v : Option BP)
    (h : m ≠ n) : slotGet (l.set n v) m = slotGet l m := by
  induction l generalizing n m with
  | nil => rfl
  | cons a t ih =>
    cases n with
    | zero =>
      cases m with
      | zero => exact absurd rfl h
      | succ m' => rfl
    | succ n' =>
      cases m with
      | zero => rfl
      | succ m' =>
        rw [List.set_cons_succ, slotGet, List.getD_cons_succ, slotGet,
          List.getD_cons_succ]
        exact ih n' m' (by omega)

theorem slotGet_append_lt (l l' : List (Option BP)) (n : Nat)
    (h : n < l.length) : slotGet (l ++ l') n = slotGet l n := by
  induction l generalizing n with
  | nil => simp at h
  | cons a t ih =>
    cases n with
    | zero => rfl
    | succ m =>
      rw [List.cons_append, slotGet, List.getD_cons_succ, slotGet,
        List.getD_cons_succ]
      exact ih m (by simpa using h)

theorem slotGet_append_self (l : List (Option BP)) (x : Option BP) :
    slotGet (l ++ [x]) l.length = x := by
  induction l with
  | nil => rfl
  | cons a t ih =>
    rw [List.cons_append, slotGet, List.length_cons, List.getD_cons_succ]
    exact ih

/-! ### The registry / by-number table agreement invariant (C4) -/

/-- Breakpoint number `n` appears in module `f`'s registry in the bucket
for code first line `fl`, in the list for actual line `a`. -/
def RegisteredAt (s : DbgState) (f : String) (fl a n : Nat) : Prop :=
  ∃ p ∈ s.breakpoints, p.1 = f ∧
    ∃ q ∈ p.2.breakpts, q.1 = fl ∧ ∃ r ∈ q.2, r.1 = a ∧ n ∈ r.2

/-- Breakpoint number `n` appears somewhere in some module's registry. -/
def RegisteredSomewhere (s : DbgState) (n : Nat) : Prop :=
  ∃ p ∈ s.breakpoints, ∃ q ∈ p.2.breakpts, ∃ r ∈ q.2, n ∈ r.2

/-- Well-formedness of the breakpoint state, as maintained by `set_break`
and `deleteMe`: the two indexes agree (every live slot is registered at its
breakpoint's address, every registered number is live with the matching
address), buckets are duplicate-free and non-empty, and the dictionaries
have distinct keys. -/
structure Inv (s : DbgState) : Prop where
  len_eq : s.bpbynumber.length = s.next
  slots : ∀ n bp, slotGet s.bpbynumber n = some bp →
    bp.number = n ∧ RegisteredAt s bp.file bp.actual_bp.1 bp.actual_bp.2 n
  reg : ∀ p ∈ s.breakpoints, ∀ q ∈ p.2.breakpts, ∀ r ∈ q.2, ∀ n ∈ r.2,
    ∃ bp, slotGet s.bpbynumber n = some bp ∧ bp.file = p.1 ∧
      bp.actual_bp = (q.1, r.1)
  bucketNodup : ∀ p ∈ s.breakpoints, ∀ q ∈ p.2.breakpts, ∀ r ∈ q.2, r.2.Nodup
  bucketNonempty : ∀ p ∈ s.breakpoints, ∀ q ∈ p.2.breakpts,
    q.2 ≠ [] ∧ ∀ r ∈ q.2, r.2 ≠ []
  fileKeys : (s.breakpoints.map Prod.fst).Nodup
  flnoKeys : ∀ p ∈ s.breakpoints, (p.2.breakpts.map Prod.fst).Nodup
  lineKeys : ∀ p ∈ s.breakpoints, ∀ q ∈ p.2.breakpts,
    (q.2.map Prod.fst).Nodup

/-- Where the entries of `delete_breakpoint`'s result come from: either an
untouched bucket of a different first line, or the updated first-line
bucket, whose entries are untouched other-line lists or the erased list. -/
theorem delete_breakpoint_char (bpts : List (Nat × List (Nat × List Nat)))
    (addr : Nat × Nat) (n : Nat) (LB : List (Nat × List Nat)) (L : List Nat)
    (h1 : dlookup bpts addr.1 = some LB) (h2 : dlookup LB addr.2 = some L)
    (h3 : n ∈ L) :
    ∀ q' ∈ delete_breakpoint bpts addr n,
      (q' ∈ bpts ∧ q'.1 ≠ addr.1) ∨
      (q'.1 = addr.1 ∧ q'.2 ≠ [] ∧
        (q'.2.map Prod.fst).Sublist (LB.map Prod.fst) ∧
        ∀ r' ∈ q'.2, (r' ∈ LB ∧ r'.1 ≠ addr.2) ∨
          (r'.1 = addr.2 ∧ r'.2 = L.erase n ∧ L.erase n ≠ [])) := by
  intro q' hq'
  rw [delete_breakpoint] at hq'
  simp only [h1, h2, if_pos h3] at hq'
  by_cases hL : L.erase n = []
  · rw [if_pos hL] at hq'
    by_cases hLB : derase LB addr.2 = []
    · rw [if_pos hLB] at hq'
      have := mem_derase _ _ _ hq'
      exact Or.inl this
    · rw [if_neg hLB] at hq'
      rcases mem_of_mem_dinsert_found _ _ _
          (dlookup_isSome_any _ _ _ h1) _ hq' with hold | hnew
      · exact Or.inl ⟨hold.1, hold.2⟩
      · subst hnew
        refine Or.inr ⟨rfl, hLB, ?_, ?_⟩
        · exact derase_keys_sublist LB addr.2
        · intro r' hr'
          exact Or.inl (mem_derase _ _ _ hr')
  · rw [if_neg hL] at hq'
    have hlbne : dinsert LB addr.2 (L.erase n) ≠ [] := by
      intro hnil
      have := mem_dinsert_found_self LB addr.2 (L.erase n)
        (dlookup_isSome_any _ _ _ h2)
      rw [hnil] at this
      simp at this
    rw [if_neg hlbne] at hq'
    rcases mem_of_mem_dinsert_found _ _ _
        (dlookup_isSome_any _ _ _ h1) _ hq' with hold | hnew
    · exact Or.inl ⟨hold.1, hold.2⟩
    · subst hnew
      refine Or.inr ⟨rfl, hlbne, ?_, ?_⟩
      · rw [dinsert_keys_found _ _ _ (dlookup_isSome_any _ _ _ h2)]
      · intro r' hr'
        rcases mem_of_mem_dinsert_found _ _ _
            (dlookup_isSome_any _ _ _ h2) _ hr' with hro | hrn
        · exact Or.inl ⟨hro.1, hro.2⟩
        · subst hrn
          exact Or.inr ⟨rfl, rfl, hL⟩

/-- Every other breakpoint number keeps its place in the registry across
`delete_breakpoint`. -/
theorem delete_breakpoint_keeps (bpts : List (Nat × List (Nat × List Nat)))
    (addr : Nat × Nat) (n : Nat) (LB : List (Nat × List Nat)) (L : List Nat)
    (h1 : dlookup bpts addr.1 = some LB) (h2 : dlookup LB addr.2 = some L)
    (h3 : n ∈ L)
    (hk1 : (bpts.map Prod.fst).Nodup) (hk2 : (LB.map Prod.fst).Nodup)
    (k : Nat) (hkn : k ≠ n)
    (q2 : Nat × List (Nat × List Nat)) (hq2 : q2 ∈ bpts)
    (r2 : Nat × List Nat) (hr2 : r2 ∈ q2.2) (hkr : k ∈ r2.2) :
    ∃ q' ∈ delete_breakpoint bpts addr n, q'.1 = q2.1 ∧
      ∃ r' ∈ q'.2, r'.1 = r2.1 ∧ k ∈ r'.2 := by
  rw [delete_breakpoint]
  simp only [h1, h2, if_pos h3]
  by_cases hq2fl : q2.1 = addr.1
  · -- q2 is the updated module bucket
    have hq2eq : q2 = (addr.1, LB) :=
      keys_unique _ hk1 _ _ hq2 (dlookup_mem _ _ _ h1) (by rw [hq2fl])
    have hr2LB : r2 ∈ LB := by rw [hq2eq] at hr2; exact hr2
    by_cases hr2a : r2.1 = addr.2
    · -- k sits in the erased list itself
      have hr2eq : r2 = (addr.2, L) :=
        keys_unique _ hk2 _ _ hr2LB (dlookup_mem _ _ _ h2) (by rw [hr2a])
      have hkL : k ∈ L := by rw [hr2eq] at hkr; exact hkr
      have hkL' : k ∈ L.erase n := (List.mem_erase_of_ne hkn).2 hkL
      have hL'ne : L.erase n ≠ [] := List.ne_nil_of_mem hkL'
      have hlb : dinsert LB addr.2 (L.erase n) ≠ [] := by
        intro hnil
        have := mem_dinsert_found_self LB addr.2 (L.erase n)
          (dlookup_isSome_any _ _ _ h2)
        rw [hnil] at this
        simp at this
      simp only [if_neg hL'ne, if_neg hlb]
      refine ⟨(addr.1, dinsert LB addr.2 (L.erase n)),
        mem_dinsert_found_self _ _ _ (dlookup_isSome_any _ _ _ h1),
        by rw [hq2eq], (addr.2, L.erase n),
        mem_dinsert_found_self _ _ _ (dlookup_isSome_any _ _ _ h2),
        by rw [hr2eq], hkL'⟩
    · -- k sits in a different line list of the same module bucket
      by_cases hL' : L.erase n = []
      · simp only [if_pos hL']
        have hr2d : r2 ∈ derase LB addr.2 := mem_derase_of _ _ _ hr2LB hr2a
        have hlbne : derase LB addr.2 ≠ [] := List.ne_nil_of_mem hr2d
        simp only [if_neg hlbne]
        exact ⟨(addr.1, derase LB addr.2),
          mem_dinsert_found_self _ _ _ (dlookup_isSome_any _ _ _ h1),
          by rw [hq2eq], r2, hr2d, rfl, hkr⟩
      · simp only [if_neg hL']
        have hr2d : r2 ∈ dinsert LB addr.2 (L.erase n) :=
          mem_dinsert_found_other _ _ _ (dlookup_isSome_any _ _ _ h2) _
            hr2LB hr2a
        have hlbne : dinsert LB addr.2 (L.erase n) ≠ [] :=
          List.ne_nil_of_mem hr2d
        simp only [if_neg hlbne]
        exact ⟨(addr.1, dinsert LB addr.2 (L.erase n)),
          mem_dinsert_found_self _ _ _ (dlookup_isSome_any _ _ _ h1),
          by rw [hq2eq], r2, hr2d, rfl, hkr⟩
  · -- a different module bucket: untouched
    by_cases hL' : L.erase n = []
    · simp only [if_pos hL']
      by_cases hlb : derase LB addr.2 = []
      · simp only [if_pos hlb]
        exact ⟨q2, mem_derase_of _ _ _ hq2 hq2fl, rfl, r2, hr2, rfl, hkr⟩
      · simp only [if_neg hlb]
        exact ⟨q2, mem_dinsert_found_other _ _ _
          (dlookup_isSome_any _ _ _ h1) _ hq2 hq2fl, rfl, r2, hr2, rfl, hkr⟩
    · simp only [if_neg hL']
      have hlb : dinsert LB addr.2 (L.erase n) ≠ [] := by
        intro hnil
        have := mem_dinsert_found_self LB addr.2 (L.erase n)
          (dlookup_isSome_any _ _ _ h2)
        rw [hnil] at this
        simp at this
      simp only [if_neg hlb]
      exact ⟨q2, mem_dinsert_found_other _ _ _
        (dlookup_isSome_any _ _ _ h1) _ hq2 hq2fl, rfl, r2, hr2, rfl, hkr⟩

/-- `delete_breakpoint` never introduces a new first-line key. -/
theorem delete_breakpoint_keys (bpts : List (Nat × List (Nat × List Nat)))
    (addr : Nat × Nat) (n : Nat) :
    ((delete_breakpoint bpts addr n).map Prod.fst).Sublist
      (bpts.map Prod.fst) := by
  rw [delete_breakpoint]
  split
  · exact List.Sublist.refl _
  · rename_i LB hLB
    split
    · exact List.Sublist.refl _
    · rename_i L hL
      split
      · show ((if (if L.erase n = [] then derase LB addr.2
              else dinsert LB addr.2 (L.erase n)) = [] then derase bpts addr.1
            else dinsert bpts addr.1
              (if L.erase n = [] then derase LB addr.2
               else dinsert LB addr.2 (L.erase n))).map Prod.fst).Sublist
            (bpts.map Prod.fst)
        split
        all_goals split
        all_goals first
          | exact derase_keys_sublist _ _
          | rw [dinsert_keys_found _ _ _ (dlookup_isSome_any _ _ _ hLB)]
      · exact List.Sublist.refl _

/-- C4's workhorse: under the agreement invariant, deleting a live
breakpoint nulls its slot, removes its number from every registry bucket,
touches no other slot, and preserves the invariant. -/
theorem deleteMe_spec (s : DbgState) (hInv : Inv s) (n : Nat) (bp : BP)
    (hbp : slotGet s.bpbynumber n = some bp) :
    slotGet (deleteMe s n).bpbynumber n = Option.none ∧
    ¬ RegisteredSomewhere (deleteMe s n) n ∧
    Inv (deleteMe s n) ∧
    (deleteMe s n).next = s.next ∧
    (∀ k, k ≠ n → slotGet (deleteMe s n).bpbynumber k =
      slotGet s.bpbynumber k) := by
  obtain ⟨hnum, hreg⟩ := hInv.slots n bp hbp
  obtain ⟨⟨pf, pm⟩, hp, hpf, ⟨qf, qm⟩, hq, hqfl, ⟨rf, rm⟩, hr, hra, hnr⟩ := hreg
  simp only at hpf hqfl hra
  subst hpf; subst hqfl; subst hra
  have hm : dlookup s.breakpoints bp.file = some pm :=
    mem_dlookup _ _ _ hInv.fileKeys hp
  have hLB : dlookup pm.breakpts bp.actual_bp.1 = some qm :=
    mem_dlookup _ _ _ (hInv.flnoKeys _ hp) hq
  have hL : dlookup qm bp.actual_bp.2 = some rm :=
    mem_dlookup _ _ _ (hInv.lineKeys _ hp _ hq) hr
  have hfound : (s.breakpoints.any (fun p => p.1 == bp.file)) = true :=
    dlookup_isSome_any _ _ _ hm
  have hdel : deleteMe s n =
      { next := s.next,
        bpbynumber := s.bpbynumber.set n Option.none,
        breakpoints := dinsert s.breakpoints bp.file
          ({ code := pm.code, funcs := pm.funcs,
             breakpts := delete_breakpoint pm.breakpts bp.actual_bp n }) } := by
    rw [deleteMe]
    simp only [hbp, hm]
  have hchar := delete_breakpoint_char pm.breakpts bp.actual_bp n qm rm
    hLB hL hnr
  have hkeeps := delete_breakpoint_keeps pm.breakpts bp.actual_bp n qm rm
    hLB hL hnr (hInv.flnoKeys _ hp) (hInv.lineKeys _ hp _ hq)
  have hnodup_rm : rm.Nodup := hInv.bucketNodup _ hp _ hq _ hr
  have hslotnone : slotGet (deleteMe s n).bpbynumber n = Option.none := by
    rw [hdel]
    exact slotGet_set_self _ _ _ (slotGet_lt_length _ _ _ hbp)
  have hothers : ∀ k, k ≠ n →
      slotGet (deleteMe s n).bpbynumber k = slotGet s.bpbynumber k := by
    intro k hk
    rw [hdel]
    exact slotGet_set_ne _ _ _ _ hk
  have hnoreg : ¬ RegisteredSomewhere (deleteMe s n) n := by
    rw [hdel]
    rintro ⟨p', hp', q', hq', r', hr', hnr'⟩
    rcases mem_of_mem_dinsert_found _ _ _ hfound _ hp' with ⟨hpold, hpne⟩ | hpnew
    · obtain ⟨bp2, hbp2, hbp2f, _⟩ := hInv.reg p' hpold q' hq' r' hr' n hnr'
      rw [hbp] at hbp2; injection hbp2 with hbp2; subst hbp2
      exact hpne hbp2f.symm
    · subst hpnew
      simp only at hq'
      rcases hchar q' hq' with ⟨hqold, hqne⟩ | ⟨hqfl', _, _, hqr⟩
      · obtain ⟨bp2, hbp2, _, hbp2a⟩ :=
          hInv.reg (bp.file, pm) hp q' hqold r' hr' n hnr'
        rw [hbp] at hbp2; injection hbp2 with hbp2; subst hbp2
        exact hqne (congrArg Prod.fst hbp2a).symm
      · rcases hqr r' hr' with ⟨hrold, hrne⟩ | ⟨hra', hrer, _⟩
        · obtain ⟨bp2, hbp2, _, hbp2a⟩ :=
            hInv.reg (bp.file, pm) hp (bp.actual_bp.1, qm) hq r' hrold n hnr'
          rw [hbp] at hbp2; injection hbp2 with hbp2; subst hbp2
          exact hrne (congrArg Prod.snd hbp2a).symm
        · rw [hrer] at hnr'
          exact ((hnodup_rm.mem_erase_iff).1 hnr').1 rfl
  refine ⟨hslotnone, hnoreg, ?_, by rw [hdel], hothers⟩
  -- the invariant after deletion
  have hmem_new : (bp.file,
      ({ code := pm.code, funcs := pm.funcs,
         breakpts := delete_breakpoint pm.breakpts bp.actual_bp n } : ModBpts))
      ∈ (deleteMe s n).breakpoints := by
    rw [hdel]
    exact mem_dinsert_found_self _ _ _ hfound
  have hmem_char : ∀ p' ∈ (deleteMe s n).breakpoints,
      (p' ∈ s.breakpoints ∧ p'.1 ≠ bp.file) ∨
      p' = (bp.file,
        ({ code := pm.code, funcs := pm.funcs,
           breakpts := delete_breakpoint pm.breakpts bp.actual_bp n } :
          ModBpts)) := by
    intro p' hp'
    rw [hdel] at hp'
    exact mem_of_mem_dinsert_found _ _ _ hfound _ hp'
  constructor
  · -- len_eq
    rw [hdel]
    simpa using hInv.len_eq
  · -- slots
    intro k bp2 hk
    have hkn : k ≠ n := by
      intro hkn
      rw [hkn, hslotnone] at hk
      cases hk
    rw [hothers k hkn] at hk
    obtain ⟨hknum, hkreg⟩ := hInv.slots k bp2 hk
    refine ⟨hknum, ?_⟩
    obtain ⟨⟨pf2, pm2⟩, hp2, hpf2, q2, hq2, hqfl2, r2, hr2, hra2, hkr2⟩ := hkreg
    simp only at hpf2
    subst hpf2
    by_cases hsame : bp2.file = bp.file
    · -- same module: use delete_breakpoint_keeps
      have hpm2 : pm2 = pm := by
        have := keys_unique _ hInv.fileKeys _ _ hp2 hp (by rw [hsame])
        injection this with _ h2
      subst hpm2
      obtain ⟨q', hq', hq'1, r', hr', hr'1, hkr'⟩ :=
        hkeeps k hkn q2 hq2 r2 hr2 hkr2
      refine ⟨_, hmem_new, by rw [hsame], q', hq', ?_, r', hr', ?_, hkr'⟩
      · rw [hq'1, hqfl2]
      · rw [hr'1, hra2]
    · -- different module: its entry is untouched
      refine ⟨(bp2.file, pm2), ?_, rfl, q2, hq2, hqfl2, r2, hr2, hra2, hkr2⟩
      rw [hdel]
      exact mem_dinsert_found_other _ _ _ hfound _ hp2 hsame
  · -- reg
    intro p' hp' q' hq' r' hr' k hkr'
    have hkn : k ≠ n := by
      intro hkn
      subst hkn
      exact hnoreg ⟨p', hp', q', hq', r', hr', hkr'⟩
    rcases hmem_char p' hp' with ⟨hpold, _⟩ | hpnew
    · obtain ⟨bp2, hbp2, hbp2f, hbp2a⟩ :=
        hInv.reg p' hpold q' hq' r' hr' k hkr'
      exact ⟨bp2, by rw [hothers k hkn]; exact hbp2, hbp2f, hbp2a⟩
    · subst hpnew
      simp only at hq'
      rcases hchar q' hq' with ⟨hqold, _⟩ | ⟨hqfl', _, _, hqr⟩
      · obtain ⟨bp2, hbp2, hbp2f, hbp2a⟩ :=
          hInv.reg (bp.file, pm) hp q' hqold r' hr' k hkr'
        exact ⟨bp2, by rw [hothers k hkn]; exact hbp2, hbp2f, hbp2a⟩
      · rcases hqr r' hr' with ⟨hrold, _⟩ | ⟨hra', hrer, _⟩
        · obtain ⟨bp2, hbp2, hbp2f, hbp2a⟩ :=
            hInv.reg (bp.file, pm) hp (bp.actual_bp.1, qm) hq r' hrold k hkr'
          refine ⟨bp2, by rw [hothers k hkn]; exact hbp2, hbp2f, ?_⟩
          rw [hbp2a, hqfl']
        · have hkrm : k ∈ rm := by
            rw [hrer] at hkr'
            exact List.mem_of_mem_erase hkr'
          obtain ⟨bp2, hbp2, hbp2f, hbp2a⟩ :=
            hInv.reg (bp.file, pm) hp (bp.actual_bp.1, qm) hq
              (bp.actual_bp.2, rm) hr k hkrm
          refine ⟨bp2, by rw [hothers k hkn]; exact hbp2, hbp2f, ?_⟩
          rw [hbp2a, hqfl', hra']
  · -- bucketNodup
    intro p' hp' q' hq' r' hr'
    rcases hmem_char p' hp' with ⟨hpold, _⟩ | hpnew
    · exact hInv.bucketNodup p' hpold q' hq' r' hr'
    · subst hpnew
      simp only at hq'
      rcases hchar q' hq' with ⟨hqold, _⟩ | ⟨_, _, _, hqr⟩
      · exact hInv.bucketNodup (bp.file, pm) hp q' hqold r' hr'
      · rcases hqr r' hr' with ⟨hrold, _⟩ | ⟨_, hrer, _⟩
        · exact hInv.bucketNodup (bp.file, pm) hp (bp.actual_bp.1, qm) hq
            r' hrold
        · rw [hrer]
          exact hnodup_rm.erase _
  · -- bucketNonempty
    intro p' hp' q' hq'
    rcases hmem_char p' hp' with ⟨hpold, _⟩ | hpnew
    · exact hInv.bucketNonempty p' hpold q' hq'
    · subst hpnew
      simp only at hq'
      rcases hchar q' hq' with ⟨hqold, _⟩ | ⟨_, hqne, _, hqr⟩
      · exact hInv.bucketNonempty (bp.file, pm) hp q' hqold
      · refine ⟨hqne, ?_⟩
        intro r' hr'
        rcases hqr r' hr' with ⟨hrold, _⟩ | ⟨_, hrer, hrne⟩
        · exact (hInv.bucketNonempty (bp.file, pm) hp
            (bp.actual_bp.1, qm) hq).2 r' hrold
        · rw [hrer]; exact hrne
  · -- fileKeys
    rw [hdel, dinsert_keys_found _ _ _ hfound]
    exact hInv.fileKeys
  · -- flnoKeys
    intro p' hp'
    rcases hmem_char p' hp' with ⟨hpold, _⟩ | hpnew
    · exact hInv.flnoKeys p' hpold
    · subst hpnew
      exact (hInv.flnoKeys (bp.file, pm) hp).sublist
        (delete_breakpoint_keys _ _ _)
  · -- lineKeys
    intro p' hp' q' hq'
    rcases hmem_char p' hp' with ⟨hpold, _⟩ | hpnew
    · exact hInv.lineKeys p' hpold q' hq'
    · subst hpnew
      simp only at hq'
      rcases hchar q' hq' with ⟨hqold, _⟩ | ⟨_, _, hqsub, _⟩
      · exact hInv.lineKeys (bp.file, pm) hp q' hqold
      · exact (hInv.lineKeys (bp.file, pm) hp
          (bp.actual_bp.1, qm) hq).sublist hqsub

/-! ### `break_here` analysis -/

/-- Does the (live) breakpoint numbered `n` demand a stop on this hit? -/
def demandsStop (s : DbgState) (ev : String → EvalResult) (n : Nat) : Bool :=
  match slotGet s.bpbynumber n with
  | some bp => (process_hit_event bp ev).2.1
  | Option.none => false

/-- Is the (live) breakpoint numbered `n` a temporary to be deleted after
this hit? -/
def tempDelete (s : DbgState) (ev : String → EvalResult) (n : Nat) : Bool :=
  match slotGet s.bpbynumber n with
  | some bp => (process_hit_event bp ev).2.1 && bp.temporary &&
      (process_hit_event bp ev).2.2
  | Option.none => false

theorem ignoreStep_fields (b : BP) :
    (ignoreStep b).1.number = b.number ∧ (ignoreStep b).1.file = b.file ∧
    (ignoreStep b).1.actual_bp = b.actual_bp ∧
    (ignoreStep b).1.temporary = b.temporary := by
  rw [ignoreStep]; split <;> exact ⟨rfl, rfl, rfl, rfl⟩

/-- Processing a hit never changes a breakpoint's number, file, address or
temporariness (only `hits` and `ignore` move). -/
theorem process_hit_event_fields (bp : BP) (ev : String → EvalResult) :
    (process_hit_event bp ev).1.number = bp.number ∧
    (process_hit_event bp ev).1.file = bp.file ∧
    (process_hit_event bp ev).1.actual_bp = bp.actual_bp ∧
    (process_hit_event bp ev).1.temporary = bp.temporary := by
  by_cases hen : bp.enabled = true
  · by_cases hc : condTruthy bp.cond = true
    · cases hev : ev (bp.cond.getD "") with
      | raises =>
        have h : process_hit_event bp ev =
            ({ bp with hits := bp.hits + 1 }, true, false) := by
          simp [process_hit_event, hen, hc, hev]
        rw [h]; exact ⟨rfl, rfl, rfl, rfl⟩
      | val b =>
        cases b with
        | false =>
          have h : process_hit_event bp ev =
              ({ bp with hits := bp.hits + 1 }, false, false) := by
            simp [process_hit_event, hen, hc, hev]
          rw [h]; exact ⟨rfl, rfl, rfl, rfl⟩
        | true =>
          have h : process_hit_event bp ev =
              ignoreStep { bp with hits := bp.hits + 1 } := by
            simp [process_hit_event, hen, hc, hev]
          rw [h]; exact ignoreStep_fields _
    · have h : process_hit_event bp ev =
          ignoreStep { bp with hits := bp.hits + 1 } := by
        simp [process_hit_event, hen, hc]
      rw [h]; exact ignoreStep_fields _
  · have h : process_hit_event bp ev = (bp, false, false) := by
      simp [process_hit_event, hen]
    rw [h]; exact ⟨rfl, rfl, rfl, rfl⟩

/-- The effect of `break_here`'s loop: the effective and temporary lists
are the filters of the processed numbers, and each slot holds its
processed breakpoint. -/
theorem foldl_procStep_spec (ev : String → EvalResult) :
    ∀ (nums : List Nat) (st : DbgState) (eff tmp : List Nat),
      nums.Nodup →
      (nums.foldl (procStep ev) (st, eff, tmp)).2.1 =
          eff ++ nums.filter (demandsStop st ev) ∧
      (nums.foldl (procStep ev) (st, eff, tmp)).2.2 =
          tmp ++ nums.filter (tempDelete st ev) ∧
      (∀ k, slotGet (nums.foldl (procStep ev) (st, eff, tmp)).1.bpbynumber k =
        (if k ∈ nums then
          (slotGet st.bpbynumber k).map (fun bp => (process_hit_event bp ev).1)
         else slotGet st.bpbynumber k)) ∧
      (nums.foldl (procStep ev) (st, eff, tmp)).1.breakpoints =
        st.breakpoints ∧
      (nums.foldl (procStep ev) (st, eff, tmp)).1.next = st.next ∧
      (nums.foldl (procStep ev) (st, eff, tmp)).1.bpbynumber.length =
        st.bpbynumber.length := by
  intro nums
  induction nums with
  | nil =>
    intro st eff tmp _
    refine ⟨by simp, by simp, ?_, rfl, rfl, rfl⟩
    intro k
    simp
  | cons n rest ih =>
    intro st eff tmp hnd
    rw [List.nodup_cons] at hnd
    obtain ⟨hn, hrest⟩ := hnd
    rw [List.foldl_cons]
    cases hslot : slotGet st.bpbynumber n with
    | none =>
      have hstep : procStep ev (st, eff, tmp) n = (st, eff, tmp) := by
        rw [procStep]
        simp only [hslot]
      rw [hstep]
      obtain ⟨ih1, ih2, ih3, ih4, ih5, ih6⟩ := ih st eff tmp hrest
      have hds : demandsStop st ev n = false := by
        rw [demandsStop]; simp only [hslot]
      have htd : tempDelete st ev n = false := by
        rw [tempDelete]; simp only [hslot]
      refine ⟨?_, ?_, ?_, ih4, ih5, ih6⟩
      · rw [ih1, List.filter_cons, hds]; simp
      · rw [ih2, List.filter_cons, htd]; simp
      · intro k
        rw [ih3 k]
        by_cases hk : k = n
        · subst hk
          simp only [List.mem_cons, true_or, if_true,
            if_neg (fun h => hn h), hslot]
          simp
        · simp only [List.mem_cons]
          by_cases hkr : k ∈ rest <;> simp [hk, hkr]
    | some bp =>
      have hstep : procStep ev (st, eff, tmp) n =
          ({ st with bpbynumber := st.bpbynumber.set n (some (process_hit_event bp ev).1) },
           (if (process_hit_event bp ev).2.1 then eff ++ [n] else eff),
           (if (process_hit_event bp ev).2.1 then
             (if bp.temporary && (process_hit_event bp ev).2.2 then
               tmp ++ [n] else tmp)
            else tmp)) := by
        rw [procStep]
        simp only [hslot]
        split
        · rfl
        · rfl
      rw [hstep]
      set st' : DbgState := { st with bpbynumber := st.bpbynumber.set n (some (process_hit_event bp ev).1) } with hst'
      have hslot_same : ∀ k ∈ rest, slotGet st'.bpbynumber k =
          slotGet st.bpbynumber k := by
        intro k hk
        rw [hst']
        exact slotGet_set_ne _ _ _ _ (fun h => hn (h ▸ hk))
      have hfilter_ds : rest.filter (demandsStop st' ev) =
          rest.filter (demandsStop st ev) := by
        apply List.filter_congr
        intro k hk
        rw [demandsStop, demandsStop, hslot_same k hk]
      have hfilter_td : rest.filter (tempDelete st' ev) =
          rest.filter (tempDelete st ev) := by
        apply List.filter_congr
        intro k hk
        rw [tempDelete, tempDelete, hslot_same k hk]
      have hds : demandsStop st ev n = (process_hit_event bp ev).2.1 := by
        rw [demandsStop]; simp only [hslot]
      have htd : tempDelete st ev n = ((process_hit_event bp ev).2.1 &&
          bp.temporary && (process_hit_event bp ev).2.2) := by
        rw [tempDelete]; simp only [hslot]
      obtain ⟨ih1, ih2, ih3, ih4, ih5, ih6⟩ := ih st' _ _ hrest
      refine ⟨?_, ?_, ?_, ih4, ih5, ?_⟩
      · rw [ih1, hfilter_ds, List.filter_cons, hds]
        cases hstop : (process_hit_event bp ev).2.1
        · simp
        · simp
      · rw [ih2, hfilter_td, List.filter_cons, htd]
        cases hstop : (process_hit_event bp ev).2.1
        · simp
        · cases htmp : (bp.temporary && (process_hit_event bp ev).2.2)
          · simp [htmp]
          · simp [htmp]
      · intro k
        rw [ih3 k]
        by_cases hk : k = n
        · subst hk
          have hkr : k ∉ rest := hn
          rw [if_neg hkr]
          have hproj : st'.bpbynumber =
              st.bpbynumber.set k (some (process_hit_event bp ev).1) := rfl
          rw [hproj, slotGet_set_self _ _ _ (slotGet_lt_length _ _ _ hslot),
            hslot]
          simp
        · by_cases hkr : k ∈ rest
          · simp only [if_pos hkr, List.mem_cons]
            rw [hslot_same k hkr]
            simp [hkr]
          · simp only [if_neg hkr, List.mem_cons]
            have : ¬(k = n ∨ k ∈ rest) := by
              rintro (h | h)
              · exact hk h
              · exact hkr h
            rw [if_neg this]
            exact slotGet_set_ne _ _ _ _ hk
      · rw [ih6, hst']
        simp

theorem registeredAt_congr (s s' : DbgState)
    (h : s'.breakpoints = s.breakpoints) (f : String) (fl a n : Nat) :
    RegisteredAt s' f fl a n ↔ RegisteredAt s f fl a n := by
  simp only [RegisteredAt, h]

theorem registeredSomewhere_congr (s s' : DbgState)
    (h : s'.breakpoints = s.breakpoints) (n : Nat) :
    RegisteredSomewhere s' n ↔ RegisteredSomewhere s n := by
  simp only [RegisteredSomewhere, h]

theorem bucketOf_nodup (s : DbgState) (fr : HitFrame) (hInv : Inv s) :
    (bucketOf s fr).Nodup := by
  rw [bucketOf]
  split
  · exact List.nodup_nil
  · rename_i m hm
    split
    · exact List.nodup_nil
    · rename_i LB hLB
      cases hL : dlookup LB fr.f_lineno with
      | none => simp [hL]
      | some L =>
        simp only [hL, Option.getD_some]
        exact hInv.bucketNodup _ (dlookup_mem _ _ _ hm) _
          (dlookup_mem _ _ _ hLB) _ (dlookup_mem _ _ _ hL)

/-- The result and state of `break_here`, in terms of the pre-state. -/
theorem break_here_master (s : DbgState) (fr : HitFrame) (hInv : Inv s) :
    ((break_here s fr).2 = Option.none ↔
      (bucketOf s fr).filter (demandsStop s fr.ev) = []) ∧
    (∀ l t, (break_here s fr).2 = some (l, t) →
      l = List.insertionSort (· ≤ ·)
        ((bucketOf s fr).filter (demandsStop s fr.ev)) ∧
      t = List.insertionSort (· ≤ ·)
        ((bucketOf s fr).filter (tempDelete s fr.ev))) ∧
    (∀ k, slotGet (break_here s fr).1.bpbynumber k =
      (if k ∈ bucketOf s fr then
        (slotGet s.bpbynumber k).map
          (fun bp => (process_hit_event bp fr.ev).1)
       else slotGet s.bpbynumber k)) ∧
    (break_here s fr).1.breakpoints = s.breakpoints ∧
    (break_here s fr).1.next = s.next ∧
    (break_here s fr).1.bpbynumber.length = s.bpbynumber.length := by
  have hnd := bucketOf_nodup s fr hInv
  obtain ⟨h1, h2, h3, h4, h5, h6⟩ :=
    foldl_procStep_spec fr.ev (bucketOf s fr) s [] [] hnd
  rw [List.nil_append] at h1 h2
  have hfst : (break_here s fr).1 =
      ((bucketOf s fr).foldl (procStep fr.ev) (s, [], [])).1 := by
    rw [break_here]
    split <;> rfl
  have hsnd : (break_here s fr).2 =
      (if (bucketOf s fr).filter (demandsStop s fr.ev) ≠ [] then
        some (List.insertionSort (· ≤ ·)
            ((bucketOf s fr).filter (demandsStop s fr.ev)),
          List.insertionSort (· ≤ ·)
            ((bucketOf s fr).filter (tempDelete s fr.ev)))
       else Option.none) := by
    rw [break_here]
    simp only [h1, h2]
    split <;> rfl
  refine ⟨?_, ?_, ?_, ?_, ?_, ?_⟩
  · rw [hsnd]
    split
    · rename_i hne
      simp [hne]
    · rename_i hne
      rw [not_not] at hne
      simp [hne]
  · intro l t hlt
    rw [hsnd] at hlt
    split at hlt
    · injection hlt with hlt
      injection hlt with hl ht
      exact ⟨hl.symm, ht.symm⟩
    · cases hlt
  · intro k
    rw [hfst]
    exact h3 k
  · rw [hfst]; exact h4
  · rw [hfst]; exact h5
  · rw [hfst]; exact h6

/-- `break_here` preserves the agreement invariant: only `hits` and
`ignore` counters move. -/
theorem break_here_inv (s : DbgState) (fr : HitFrame) (hInv : Inv s) :
    Inv (break_here s fr).1 := by
  obtain ⟨-, -, h3, h4, h5, h6⟩ := break_here_master s fr hInv
  constructor
  · rw [h6, h5, hInv.len_eq]
  · intro k bp' hk
    rw [h3 k] at hk
    by_cases hkb : k ∈ bucketOf s fr
    · rw [if_pos hkb] at hk
      cases hsl : slotGet s.bpbynumber k with
      | none => rw [hsl] at hk; cases hk
      | some bp =>
        rw [hsl] at hk
        simp only [Option.map_some'] at hk
        injection hk with hk
        subst hk
        obtain ⟨hnum, hreg⟩ := hInv.slots k bp hsl
        obtain ⟨f1, f2, f3, f4⟩ := process_hit_event_fields bp fr.ev
        refine ⟨by rw [f1, hnum], ?_⟩
        rw [f2, f3]
        exact (registeredAt_congr s _ h4 _ _ _ _).2 hreg
    · rw [if_neg hkb] at hk
      obtain ⟨hnum, hreg⟩ := hInv.slots k bp' hk
      exact ⟨hnum, (registeredAt_congr s _ h4 _ _ _ _).2 hreg⟩
  · intro p hp q hq r hr n hn
    rw [h4] at hp
    obtain ⟨bp2, hbp2, hf, ha⟩ := hInv.reg p hp q hq r hr n hn
    by_cases hnb : n ∈ bucketOf s fr
    · refine ⟨(process_hit_event bp2 fr.ev).1, ?_, ?_, ?_⟩
      · rw [h3 n, if_pos hnb, hbp2]
        rfl
      · rw [(process_hit_event_fields bp2 fr.ev).2.1, hf]
      · rw [(process_hit_event_fields bp2 fr.ev).2.2.1, ha]
    · exact ⟨bp2, by rw [h3 n, if_neg hnb]; exact hbp2, hf, ha⟩
  · intro p hp
    rw [h4] at hp
    exact fun q hq r hr => hInv.bucketNodup p hp q hq r hr
  · intro p hp
    rw [h4] at hp
    exact fun q hq => hInv.bucketNonempty p hp q hq
  · rw [h4]; exact hInv.fileKeys
  · intro p hp
    rw [h4] at hp
    exact hInv.flnoKeys p hp
  · intro p hp
    rw [h4] at hp
    exact fun q hq => hInv.lineKeys p hp q hq

/-- `delete_breakpoint` only ever removes registrations. -/
theorem delete_breakpoint_sub (bpts : List (Nat × List (Nat × List Nat)))
    (addr : Nat × Nat) (k : Nat) :
    ∀ q' ∈ delete_breakpoint bpts addr k, ∀ r' ∈ q'.2, ∀ n ∈ r'.2,
      ∃ q ∈ bpts, ∃ r ∈ q.2, n ∈ r.2 := by
  intro q' hq' r' hr' n hn
  cases hLB : dlookup bpts addr.1 with
  | none =>
    rw [delete_breakpoint] at hq'
    simp only [hLB] at hq'
    exact ⟨q', hq', r', hr', hn⟩
  | some LB =>
    cases hL : dlookup LB addr.2 with
    | none =>
      rw [delete_breakpoint] at hq'
      simp only [hLB, hL] at hq'
      exact ⟨q', hq', r', hr', hn⟩
    | some L =>
      by_cases hkL : k ∈ L
      · rcases delete_breakpoint_char bpts addr k LB L hLB hL hkL q' hq' with
          ⟨hold, _⟩ | ⟨_, _, _, hqr⟩
        · exact ⟨q', hold, r', hr', hn⟩
        · rcases hqr r' hr' with ⟨hrold, _⟩ | ⟨_, hrer, _⟩
          · exact ⟨(addr.1, LB), dlookup_mem _ _ _ hLB, r', hrold, hn⟩
          · refine ⟨(addr.1, LB), dlookup_mem _ _ _ hLB,
              (addr.2, L), dlookup_mem _ _ _ hL, ?_⟩
            rw [hrer] at hn
            exact List.mem_of_mem_erase hn
      · rw [delete_breakpoint] at hq'
        simp only [hLB, hL, if_neg hkL] at hq'
        exact ⟨q', hq', r', hr', hn⟩

/-- `deleteMe` never creates a registration. -/
theorem deleteMe_reg_mono (s : DbgState) (k n : Nat)
    (h : RegisteredSomewhere (deleteMe s k) n) : RegisteredSomewhere s n := by
  rw [deleteMe] at h
  cases hsl : slotGet s.bpbynumber k with
  | none =>
    simp only [hsl] at h
    exact h
  | some bp =>
    simp only [hsl] at h
    cases hm : dlookup s.breakpoints bp.file with
    | none =>
      simp only [hm] at h
      exact h
    | some m =>
      simp only [hm] at h
      obtain ⟨p', hp', q', hq', r', hr', hnr'⟩ := h
      rcases mem_of_mem_dinsert_found _ _ _ (dlookup_isSome_any _ _ _ hm) _
          hp' with ⟨hpold, _⟩ | hpnew
      · exact ⟨p', hpold, q', hq', r', hr', hnr'⟩
      · subst hpnew
        simp only at hq'
        obtain ⟨q, hq, r, hr, hnr⟩ :=
          delete_breakpoint_sub m.breakpts bp.actual_bp k q' hq' r' hr' n hnr'
        exact ⟨(bp.file, m), dlookup_mem _ _ _ hm, q, hq, r, hr, hnr⟩

/-- `deleteMe` of another number never resurrects or changes slot `n`. -/
theorem deleteMe_slot_other (s : DbgState) (k n : Nat) (h : n ≠ k) :
    slotGet (deleteMe s k).bpbynumber n = slotGet s.bpbynumber n := by
  rw [deleteMe]
  cases hsl : slotGet s.bpbynumber k with
  | none => rfl
  | some bp =>
    cases hm : dlookup s.breakpoints bp.file with
    | none =>
      simp only [hm]
      exact slotGet_set_ne _ _ _ _ h
    | some m =>
      simp only [hm]
      exact slotGet_set_ne _ _ _ _ h

theorem foldl_deleteMe_reg_mono :
    ∀ (temps : List Nat) (st : DbgState) (n : Nat),
      RegisteredSomewhere (temps.foldl deleteMe st) n →
      RegisteredSomewhere st n := by
  intro temps
  induction temps with
  | nil => intro st n h; exact h
  | cons x xs ihx =>
    intro st n h
    rw [List.foldl_cons] at h
    exact deleteMe_reg_mono st x n (ihx (deleteMe st x) n h)

/-- Folding `deleteMe` over a duplicate-free list of live numbers deletes
exactly those numbers (slot and registry), leaves other slots alone, and
preserves the invariant. -/
theorem foldl_deleteMe_spec :
    ∀ (temps : List Nat) (st : DbgState), Inv st → temps.Nodup →
      (∀ m ∈ temps, ∃ b, slotGet st.bpbynumber m = some b) →
      Inv (temps.foldl deleteMe st) ∧
      (∀ m ∈ temps,
        slotGet (temps.foldl deleteMe st).bpbynumber m = Option.none ∧
        ¬ RegisteredSomewhere (temps.foldl deleteMe st) m) ∧
      (∀ k, k ∉ temps →
        slotGet (temps.foldl deleteMe st).bpbynumber k =
          slotGet st.bpbynumber k) := by
  intro temps
  induction temps with
  | nil =>
    intro st hInv _ _
    exact ⟨hInv, by simp, fun k _ => rfl⟩
  | cons m rest ih =>
    intro st hInv hnd hlive
    rw [List.nodup_cons] at hnd
    obtain ⟨hm, hrest⟩ := hnd
    obtain ⟨b, hb⟩ := hlive m (List.mem_cons_self _ _)
    obtain ⟨hnone, hnoreg, hInv1, _, hothers⟩ := deleteMe_spec st hInv m b hb
    have hlive1 : ∀ m' ∈ rest, ∃ b',
        slotGet (deleteMe st m).bpbynumber m' = some b' := by
      intro m' hm'
      obtain ⟨b', hb'⟩ := hlive m' (List.mem_cons_of_mem _ hm')
      exact ⟨b', by rw [hothers m' (fun h => hm (h ▸ hm'))]; exact hb'⟩
    obtain ⟨ihInv, ihdel, ihoth⟩ := ih (deleteMe st m) hInv1 hrest hlive1
    rw [List.foldl_cons]
    refine ⟨ihInv, ?_, ?_⟩
    · intro m' hm'
      rcases List.mem_cons.1 hm' with rfl | hm'r
      · refine ⟨by rw [ihoth m' hm, hnone], ?_⟩
        intro hreg
        exact hnoreg (foldl_deleteMe_reg_mono rest (deleteMe st m') m' hreg)
      · exact ihdel m' hm'r
    · intro k hk
      rw [List.mem_cons, not_or] at hk
      rw [ihoth k hk.2, hothers k hk.1]

/-! ### `has_breaks` and live breakpoints (C7) -/

/-- Some slot of the by-number table is live. -/
def HasLiveBp (s : DbgState) : Prop := ∃ x ∈ s.bpbynumber, x ≠ Option.none

theorem slotGet_mem (l : List (Option BP)) (n : Nat) (bp : BP)
    (h : slotGet l n = some bp) : some bp ∈ l := by
  induction l generalizing n with
  | nil => simp [slotGet] at h
  | cons a t ih =>
    cases n with
    | zero =>
      rw [slotGet, List.getD_cons_zero] at h
      rw [h]
      exact List.mem_cons_self _ _
    | succ m =>
      rw [slotGet, List.getD_cons_succ] at h
      exact List.mem_cons_of_mem _ (ih m h)

theorem mem_slotGet (l : List (Option BP)) (x : Option BP) (h : x ∈ l) :
    ∃ n, slotGet l n = x := by
  induction l with
  | nil => cases h
  | cons a t ih =>
    rcases List.mem_cons.1 h with rfl | hm
    · exact ⟨0, rfl⟩
    · obtain ⟨n, hn⟩ := ih hm
      exact ⟨n + 1, by rw [slotGet, List.getD_cons_succ]; exact hn⟩

/-- Under the invariant, `has_breaks` is exactly "some live breakpoint
remains". -/
theorem has_breaks_iff (s : DbgState) (hInv : Inv s) :
    has_breaks s = true ↔ HasLiveBp s := by
  constructor
  · intro h
    rw [has_breaks, List.any_eq_true] at h
    obtain ⟨p, hp, hne⟩ := h
    have hbne : p.2.breakpts ≠ [] := by
      intro hnil
      rw [hnil] at hne
      simp at hne
    obtain ⟨q, hq⟩ := List.exists_mem_of_ne_nil _ hbne
    have hqne := hInv.bucketNonempty p hp q hq
    obtain ⟨r, hr⟩ := List.exists_mem_of_ne_nil _ hqne.1
    obtain ⟨n, hn⟩ := List.exists_mem_of_ne_nil _ (hqne.2 r hr)
    obtain ⟨bp, hbp, -, -⟩ := hInv.reg p hp q hq r hr n hn
    exact ⟨some bp, slotGet_mem _ _ _ hbp, by simp⟩
  · rintro ⟨x, hx, hne⟩
    cases x with
    | none => exact absurd rfl hne
    | some bp =>
      obtain ⟨n, hn⟩ := mem_slotGet _ _ hx
      obtain ⟨-, p, hp, -, q, hq, -⟩ := (hInv.slots n bp hn)
      rw [has_breaks, List.any_eq_true]
      refine ⟨p, hp, ?_⟩
      have hbne : p.2.breakpts ≠ [] := List.ne_nil_of_mem hq
      simp [List.isEmpty_iff, hbne]

/-! ### `_set_stopinfo`'s stack walk (C6) -/

/-- `stopWalk` returns the requested frame exactly when the walk from the
top of the stack meets it before meeting the bottom frame (or runs out). -/
def walkKeeps (botframe : Option Nat) (sf : Nat) : List Nat → Bool
  | [] => true
  | f :: rest => f == sf || (botframe != some f && walkKeeps botframe sf rest)

theorem stopWalk_of_walkKeeps (bot : Option Nat) (sf : Nat) :
    ∀ stack, walkKeeps bot sf stack = true → stopWalk bot sf stack = sf := by
  intro stack
  induction stack with
  | nil => intro _; rfl
  | cons f rest ih =>
    intro h
    rw [walkKeeps] at h
    rw [stopWalk]
    by_cases hf : f = sf
    · rw [if_pos hf]
    · rw [if_neg hf]
      rw [Bool.or_eq_true, beq_iff_eq] at h
      rcases h with h | h
      · exact absurd h hf
      · rw [Bool.and_eq_true] at h
        have hbot : bot ≠ some f := by simpa [bne] using h.1
        rw [if_neg hbot]
        exact ih h.2

/-! ### `get_bpbynumber` helpers (C9) -/

theorem getElem?_slotGet (l : List (Option BP)) (n : Nat) (x : Option BP)
    (h : l[n]? = some x) : slotGet l n = x := by
  induction l generalizing n with
  | nil => simp at h
  | cons a t ih =>
    cases n with
    | zero =>
      simp at h
      rw [slotGet, List.getD_cons_zero, h]
    | succ m =>
      rw [List.getElem?_cons_succ] at h
      rw [slotGet, List.getD_cons_succ]
      exact ih m h

theorem pyIndex_spec (l : List (Option BP)) (i : Int) (x : Option BP)
    (h : pyIndex l i = some x) :
    0 ≤ wrappedIdx l.length i ∧ wrappedIdx l.length i < (l.length : Int) ∧
    slotGet l (wrappedIdx l.length i).toNat = x := by
  rw [pyIndex] at h
  split at h
  · rename_i hj
    exact ⟨hj.1, hj.2, getElem?_slotGet _ _ _ h⟩
  · cases h

/-! ### Qualifying and raising hits (C5) -/

theorem process_qualifies (bp : BP) (ev : String → EvalResult)
    (hen : bp.enabled = true)
    (hcond : condTruthy bp.cond = false ∨
      ev (bp.cond.getD "") = EvalResult.val true)
    (hig : bp.ignore = 0) :
    process_hit_event bp ev = ({ bp with hits := bp.hits + 1 }, true, true) := by
  rcases hcond with hc | hev
  · have h : process_hit_event bp ev =
        ignoreStep { bp with hits := bp.hits + 1 } := by
      simp [process_hit_event, hen, hc]
    rw [h, ignoreStep_zero { bp with hits := bp.hits + 1 } hig]
  · by_cases hc : condTruthy bp.cond = true
    · have h : process_hit_event bp ev =
          ignoreStep { bp with hits := bp.hits + 1 } := by
        simp [process_hit_event, hen, hc, hev]
      rw [h, ignoreStep_zero { bp with hits := bp.hits + 1 } hig]
    · have h : process_hit_event bp ev =
          ignoreStep { bp with hits := bp.hits + 1 } := by
        simp [process_hit_event, hen, hc]
      rw [h, ignoreStep_zero { bp with hits := bp.hits + 1 } hig]

theorem process_raises (bp : BP) (ev : String → EvalResult)
    (hen : bp.enabled = true) (hct : condTruthy bp.cond = true)
    (hev : ev (bp.cond.getD "") = EvalResult.raises) :
    process_hit_event bp ev =
      ({ bp with hits := bp.hits + 1 }, true, false) := by
  simp [process_hit_event, hen, hct, hev]

/-- One full line-event breakpoint round: `break_here`, then the UI layer
deletes the reported temporaries (`clear_reported_temporaries`, modelled
from the spec). -/
def break_event_round (s : DbgState) (fr : HitFrame) : DbgState :=
  clear_reported_temporaries (break_here s fr).1
    (((break_here s fr).2.map Prod.snd).getD [])

/-! ### Claim theorems -/

/-- C1: for every loaded module and user-requested line `L`,
`get_actual_bp(L)` either raises a source error or returns an address
`(code first line, actual line)` whose actual line is `≥ L` and is an
executable statement line of some (possibly nested) code unit of the
module. -/
theorem get_actual_bp_resolves (croot : Code) (L f a : Nat)
    (h : get_actual_bp (some croot) L = Except.ok (f, a)) :
    L ≤ a ∧ ∃ c ∈ allUnits croot, f = c.co_firstlineno ∧
      a ∈ code_line_numbers c := by
  rw [get_actual_bp] at h
  cases hd : pyDistance L croot true with
  | none => simp [hd] at h
  | some v =>
    obtain ⟨d, fa⟩ := v
    obtain ⟨f', a'⟩ := fa
    simp only [hd, Except.ok.injEq, Prod.mk.injEq] at h
    obtain ⟨rfl, rfl⟩ := h
    exact (pyDistance_sound_all L (sizeOf croot + 1) croot
      (Nat.lt_succ_self _)).2.2 true d f' a' hd

/-- C4: for every live breakpoint `B`, the by-number table entry at index
`B.number` is `B` and `B` appears in its module's registry under its
address (the bucket for its code first line, the list for its actual
line); after `deleteMe(B)`, `B` is absent from both the by-number table
and the per-module index, and the two indexes still agree. -/
theorem breakpoint_indexes_agree (s : DbgState) (hInv : Inv s) (n : Nat)
    (bp : BP) (hbp : slotGet s.bpbynumber n = some bp) :
    bp.number = n ∧
    RegisteredAt s bp.file bp.actual_bp.1 bp.actual_bp.2 n ∧
    slotGet (deleteMe s n).bpbynumber n = Option.none ∧
    ¬ RegisteredSomewhere (deleteMe s n) n ∧
    Inv (deleteMe s n) := by
  obtain ⟨h1, h2⟩ := hInv.slots n bp hbp
  obtain ⟨d1, d2, d3, -, -⟩ := deleteMe_spec s hInv n bp hbp
  exact ⟨h1, h2, d1, d2, d3⟩

theorem set_break_with_cases (s : DbgState) (filename : String) (m : ModBpts)
    (lineno : Nat) (temporary : Bool) (cond : Option String)
    (funcname : Option String) :
    (set_break_with s filename m lineno temporary cond funcname).1 = s ∨
    ∃ n, (set_break_with s filename m lineno temporary cond funcname).2 =
      Except.ok n := by
  rw [set_break_with]
  split
  · exact Or.inl rfl
  · split
    · exact Or.inl rfl
    · exact Or.inr ⟨_, rfl⟩

/-- C10: when `set_break` fails with a source or syntax error (module
unreadable or uncompilable, function not found, or line after the last
valid statement), the breakpoint state is unchanged: no number is
consumed, the by-number table is as before, and no per-module breakpoint
map gains an entry. -/
theorem set_break_error_leaves_state (env : ModuleEnv) (s : DbgState)
    (filename : String) (lineno : Nat) (temporary : Bool)
    (cond : Option String) (funcname : Option String) (e : String)
    (h : (set_break env s filename lineno temporary cond funcname).2 =
      Except.error e) :
    (set_break env s filename lineno temporary cond funcname).1.next =
      s.next ∧
    (set_break env s filename lineno temporary cond funcname).1.bpbynumber =
      s.bpbynumber ∧
    (set_break env s filename lineno temporary cond
      funcname).1.breakpoints = s.breakpoints := by
  rw [set_break] at h ⊢
  cases hm : dlookup s.breakpoints filename with
  | some m =>
    simp only [hm] at h ⊢
    rcases set_break_with_cases s filename m lineno temporary cond funcname
      with h1 | ⟨n, h2⟩
    · rw [h1]
      exact ⟨rfl, rfl, rfl⟩
    · rw [h2] at h
      cases h
  | none =>
    simp only [hm] at h ⊢
    cases henv : dlookup env filename with
    | some o =>
      cases o with
      | some cf =>
        obtain ⟨code, funcs⟩ := cf
        simp only [henv] at h ⊢
        rcases set_break_with_cases s filename ⟨code, funcs, []⟩ lineno
          temporary cond funcname with h1 | ⟨n, h2⟩
        · rw [h1]
          exact ⟨rfl, rfl, rfl⟩
        · rw [h2] at h
          cases h
      | none =>
        simp only [henv] at h ⊢
        exact ⟨trivial, trivial, trivial⟩
    | none =>
      simp only [henv] at h ⊢
      exact ⟨trivial, trivial, trivial⟩

/-- C6 (counterexample): `set_next(F)` does not always set the stepping
state to `(F, 0)` — when the requested frame is not met on the stack walk
before the bottom frame, `_set_stopinfo` replaces it with the bottom
frame.  Here the stack is the single frame 1 (also the bottom frame) and
`set_next` is asked to target frame 2. -/
theorem set_next_counterexample :
    (set_next [1] (some 1) ⟨(Option.none, 0), [], true⟩ 2).stopframe_lno ≠
      (some 2, 0) := by
  decide

/-- C6 (amended): when the requested frame is found on the walk from the
top frame before the bottom frame (or the walk runs out, the no-stack case
included), the stepping commands set `stopframe_lno` exactly as stated:
`set_next(F) = (F, 0)`, `set_until(F) = (F, F.line + 1)`,
`set_until(F, L) = (F, L)`, `set_return(F) = (F, -1)`. -/
theorem stepping_commands_set_state (stack : List Nat) (botframe : Option Nat)
    (st : StepBdb) (fid : Nat) (f_lineno : Int) (L : Int)
    (h : walkKeeps botframe fid stack = true) :
    (set_next stack botframe st fid).stopframe_lno = (some fid, 0) ∧
    (set_until stack botframe st fid f_lineno
      Option.none).stopframe_lno = (some fid, f_lineno + 1) ∧
    (set_until stack botframe st fid f_lineno
      (some L)).stopframe_lno = (some fid, L) ∧
    (set_return stack botframe st fid).stopframe_lno = (some fid, -1) := by
  have hw := stopWalk_of_walkKeeps botframe fid stack h
  refine ⟨?_, ?_, ?_, ?_⟩
  · rw [set_next, set_stopinfo]
    simp [hw]
  · rw [set_until, set_stopinfo]
    simp [hw]
  · rw [set_until, set_stopinfo]
    simp [hw]
  · rw [set_return, set_stopinfo]
    simp [hw]

/-- C7: `set_continue` sets the stepping state to `(None, -1)`; exactly
when no live breakpoint remains anywhere it removes the global trace hook
and clears the per-frame trace slots along the stack, and when at least
one breakpoint remains the tracing state is untouched. -/
theorem set_continue_teardown (stack : List Nat) (botframe : Option Nat)
    (dbg : DbgState) (st : StepBdb) (hInv : Inv dbg) :
    (set_continue stack botframe dbg st).stopframe_lno =
      (Option.none, -1) ∧
    (¬ HasLiveBp dbg →
      (set_continue stack botframe dbg st).sysTrace = false ∧
      ∀ f ∈ untilBot botframe stack,
        f ∉ (set_continue stack botframe dbg st).traced) ∧
    (HasLiveBp dbg →
      (set_continue stack botframe dbg st).sysTrace = st.sysTrace ∧
      (set_continue stack botframe dbg st).traced = st.traced) := by
  by_cases hb : has_breaks dbg = true
  · have hlive := (has_breaks_iff dbg hInv).1 hb
    have hsc : set_continue stack botframe dbg st =
        { st with stopframe_lno := (Option.none, -1) } := by
      rw [set_continue]
      simp [hb, set_stopinfo]
    rw [hsc]
    exact ⟨rfl, fun hn => absurd hlive hn, fun _ => ⟨rfl, rfl⟩⟩
  · have hnl : ¬ HasLiveBp dbg := fun hl => hb ((has_breaks_iff dbg hInv).2 hl)
    have hsc : set_continue stack botframe dbg st =
        stop_tracing stack botframe
          { st with stopframe_lno := (Option.none, -1) } := by
      rw [set_continue]
      rw [Bool.not_eq_true] at hb
      simp [hb, set_stopinfo]
    rw [hsc]
    refine ⟨rfl, fun _ => ⟨rfl, ?_⟩, fun hl => absurd hl hnl⟩
    intro f hf hmem
    rw [stop_tracing] at hmem
    simp only [List.mem_filter] at hmem
    have := hmem.2
    simp only [decide_eq_true_eq] at this
    exact this hf

/-- C8: whenever at least one breakpoint at the hit address demands a
stop, `break_here` returns the pair of the breakpoint numbers that demand
a stop and the numbers of the temporaries to delete, each sorted in
ascending order; when no breakpoint demands a stop it returns `None`. -/
theorem break_here_sorted_hits (s : DbgState) (fr : HitFrame)
    (hInv : Inv s) :
    ((break_here s fr).2 = Option.none ↔
      ∀ n ∈ bucketOf s fr, demandsStop s fr.ev n = false) ∧
    (∀ l t, (break_here s fr).2 = some (l, t) →
      l ≠ [] ∧ l.Sorted (· ≤ ·) ∧ t.Sorted (· ≤ ·) ∧
      (∀ n, n ∈ l ↔ n ∈ bucketOf s fr ∧ demandsStop s fr.ev n = true) ∧
      (∀ n, n ∈ t ↔ n ∈ bucketOf s fr ∧ tempDelete s fr.ev n = true)) := by
  obtain ⟨h1, h2, -, -, -, -⟩ := break_here_master s fr hInv
  constructor
  · rw [h1, List.filter_eq_nil_iff]
    constructor
    · intro hf n hn
      have := hf n hn
      simpa using this
    · intro hf n hn
      have := hf n hn
      simp [this]
  · intro l t hlt
    obtain ⟨hl, ht⟩ := h2 l t hlt
    subst hl
    subst ht
    refine ⟨?_, List.sorted_insertionSort _ _, List.sorted_insertionSort _ _,
      ?_, ?_⟩
    · intro hnil
      have hfil : (bucketOf s fr).filter (demandsStop s fr.ev) = [] := by
        have hperm := List.perm_insertionSort (· ≤ ·)
          ((bucketOf s fr).filter (demandsStop s fr.ev))
        rw [hnil] at hperm
        exact (List.Perm.nil_eq hperm).symm
      rw [← h1] at hfil
      rw [hfil] at hlt
      cases hlt
    · intro n
      rw [(List.perm_insertionSort _ _).mem_iff, List.mem_filter]
    · intro n
      rw [(List.perm_insertionSort _ _).mem_iff, List.mem_filter]

theorem registeredAt_somewhere (s : DbgState) (f : String) (fl a n : Nat)
    (h : RegisteredAt s f fl a n) : RegisteredSomewhere s n := by
  obtain ⟨p, hp, -, q, hq, -, r, hr, -, hn⟩ := h
  exact ⟨p, hp, q, hq, r, hr, hn⟩

/-- C5: a temporary breakpoint is deleted automatically — slot nulled and
number removed from the registry — after the first hit that passes all
gating (enabled, condition absent or true, ignore count exhausted), but
survives a hit whose condition expression raises.  The deletion of the
reported temporaries by the user-interaction layer is modelled from the
spec by `clear_reported_temporaries` (see `break_event_round`). -/
theorem temporary_breakpoint_lifecycle (s : DbgState) (fr : HitFrame)
    (hInv : Inv s) (n : Nat) (bp : BP)
    (hbp : slotGet s.bpbynumber n = some bp)
    (htemp : bp.temporary = true) (hen : bp.enabled = true)
    (hmem : n ∈ bucketOf s fr) :
    ((condTruthy bp.cond = false ∨
        fr.ev (bp.cond.getD "") = EvalResult.val true) → bp.ignore = 0 →
      slotGet (break_event_round s fr).bpbynumber n = Option.none ∧
      ¬ RegisteredSomewhere (break_event_round s fr) n) ∧
    (condTruthy bp.cond = true →
      fr.ev (bp.cond.getD "") = EvalResult.raises →
      (∃ bp', slotGet (break_event_round s fr).bpbynumber n = some bp') ∧
      RegisteredSomewhere (break_event_round s fr) n) := by
  obtain ⟨m1, m2, m3, m4, m5, m6⟩ := break_here_master s fr hInv
  have hInv1 := break_here_inv s fr hInv
  have hnd := bucketOf_nodup s fr hInv
  constructor
  · -- qualifying hit: deleted from both indexes
    intro hcond hig
    have hproc := process_qualifies bp fr.ev hen hcond hig
    have hds : demandsStop s fr.ev n = true := by
      rw [demandsStop]
      simp only [hbp]
      rw [hproc]
    have htd : tempDelete s fr.ev n = true := by
      rw [tempDelete]
      simp only [hbp]
      rw [hproc]
      simp [htemp]
    have hfil : n ∈ (bucketOf s fr).filter (demandsStop s fr.ev) :=
      List.mem_filter.2 ⟨hmem, hds⟩
    cases hr2 : (break_here s fr).2 with
    | none =>
      rw [m1.1 hr2] at hfil
      cases hfil
    | some p =>
      obtain ⟨l, t⟩ := p
      obtain ⟨-, ht⟩ := m2 l t hr2
      have hber : break_event_round s fr =
          clear_reported_temporaries (break_here s fr).1 t := by
        rw [break_event_round, hr2]
        rfl
      have htn : ∀ k, k ∈ t ↔
          k ∈ bucketOf s fr ∧ tempDelete s fr.ev k = true := by
        intro k
        rw [ht, (List.perm_insertionSort _ _).mem_iff, List.mem_filter]
      have htnodup : t.Nodup := by
        rw [ht]
        exact (List.perm_insertionSort _ _).nodup_iff.2 (hnd.filter _)
      have htlive : ∀ k ∈ t, ∃ b,
          slotGet (break_here s fr).1.bpbynumber k = some b := by
        intro k hk
        obtain ⟨hkb, hktd⟩ := (htn k).1 hk
        rw [m3 k, if_pos hkb]
        rw [tempDelete] at hktd
        cases hsl : slotGet s.bpbynumber k with
        | none => rw [hsl] at hktd; simp at hktd
        | some b => exact ⟨_, rfl⟩
      obtain ⟨-, fdel, -⟩ :=
        foldl_deleteMe_spec t (break_here s fr).1 hInv1 htnodup htlive
      have hnt : n ∈ t := (htn n).2 ⟨hmem, htd⟩
      rw [hber]
      exact fdel n hnt
  · -- hit whose condition raises: the temporary survives
    intro hct hev
    have hproc := process_raises bp fr.ev hen hct hev
    have hds : demandsStop s fr.ev n = true := by
      rw [demandsStop]
      simp only [hbp]
      rw [hproc]
    have htd : tempDelete s fr.ev n = false := by
      rw [tempDelete]
      simp only [hbp]
      rw [hproc]
      simp
    have hfil : n ∈ (bucketOf s fr).filter (demandsStop s fr.ev) :=
      List.mem_filter.2 ⟨hmem, hds⟩
    cases hr2 : (break_here s fr).2 with
    | none =>
      rw [m1.1 hr2] at hfil
      cases hfil
    | some p =>
      obtain ⟨l, t⟩ := p
      obtain ⟨-, ht⟩ := m2 l t hr2
      have hber : break_event_round s fr =
          clear_reported_temporaries (break_here s fr).1 t := by
        rw [break_event_round, hr2]
        rfl
      have htn : ∀ k, k ∈ t ↔
          k ∈ bucketOf s fr ∧ tempDelete s fr.ev k = true := by
        intro k
        rw [ht, (List.perm_insertionSort _ _).mem_iff, List.mem_filter]
      have htnodup : t.Nodup := by
        rw [ht]
        exact (List.perm_insertionSort _ _).nodup_iff.2 (hnd.filter _)
      have htlive : ∀ k ∈ t, ∃ b,
          slotGet (break_here s fr).1.bpbynumber k = some b := by
        intro k hk
        obtain ⟨hkb, hktd⟩ := (htn k).1 hk
        rw [m3 k, if_pos hkb]
        rw [tempDelete] at hktd
        cases hsl : slotGet s.bpbynumber k with
        | none => rw [hsl] at hktd; simp at hktd
        | some b => exact ⟨_, rfl⟩
      obtain ⟨fInv, -, foth⟩ :=
        foldl_deleteMe_spec t (break_here s fr).1 hInv1 htnodup htlive
      have hnt : n ∉ t := by
        intro hk
        have := ((htn n).1 hk).2
        rw [htd] at this
        cases this
      have hslot1 : slotGet (break_here s fr).1.bpbynumber n =
          some (process_hit_event bp fr.ev).1 := by
        rw [m3 n, if_pos hmem, hbp]
        rfl
      have hslotf : slotGet (break_event_round s fr).bpbynumber n =
          some (process_hit_event bp fr.ev).1 := by
        rw [hber, clear_reported_temporaries, foth n hnt, hslot1]
      refine ⟨⟨_, hslotf⟩, ?_⟩
      have hInvF : Inv (break_event_round s fr) := by
        rw [hber, clear_reported_temporaries]
        exact fInv
      obtain ⟨-, hreg⟩ := hInvF.slots n _ hslotf
      exact registeredAt_somewhere _ _ _ _ _ hreg

/-- C9 (amended): `get_bpbynumber` raises exactly when the argument is
missing or empty, non-numeric, out of range after Python's negative-index
wrap (the wrapped index falls outside the table), or refers to an
already-deleted (`None`) slot; otherwise it returns the breakpoint stored
at the wrapped index, whose number equals that wrapped index — for a
negative in-range argument this is a breakpoint whose number differs from
the argument.  `clear_bpbynumber` reports the same failures by return
value and otherwise deletes that breakpoint from both indexes. -/
theorem get_clear_bpbynumber_spec (s : DbgState) (hInv : Inv s)
    (arg : PyArg) :
    (match get_bpbynumber s arg with
     | Except.error _ =>
       argFalsy arg = true ∨
       (∃ a, arg = PyArg.str a ∧ pyInt a = Option.none) ∨
       (∃ a i, arg = PyArg.str a ∧ pyInt a = some i ∧
         pyIndex s.bpbynumber i = Option.none) ∨
       (∃ a i, arg = PyArg.str a ∧ pyInt a = some i ∧
         pyIndex s.bpbynumber i = some Option.none)
     | Except.ok bp =>
       ∃ a i, arg = PyArg.str a ∧ argFalsy arg = false ∧
         pyInt a = some i ∧ pyIndex s.bpbynumber i = some (some bp) ∧
         bp.number = (wrappedIdx s.bpbynumber.length i).toNat ∧
         slotGet s.bpbynumber bp.number = some bp) ∧
    (match get_bpbynumber s arg with
     | Except.error e => clear_bpbynumber s arg = (s, some e)
     | Except.ok bp =>
       clear_bpbynumber s arg = (deleteMe s bp.number, Option.none) ∧
       slotGet (deleteMe s bp.number).bpbynumber bp.number = Option.none ∧
       ¬ RegisteredSomewhere (deleteMe s bp.number) bp.number) := by
  cases arg with
  | noneArg =>
    have hg : get_bpbynumber s PyArg.noneArg =
        Except.error "Breakpoint number expected" := rfl
    rw [hg]
    refine ⟨Or.inl rfl, ?_⟩
    rw [clear_bpbynumber, hg]
  | str a =>
    by_cases hf : argFalsy (PyArg.str a) = true
    · have hg : get_bpbynumber s (PyArg.str a) =
          Except.error "Breakpoint number expected" := by
        rw [get_bpbynumber, if_pos hf]
      rw [hg]
      refine ⟨Or.inl hf, ?_⟩
      rw [clear_bpbynumber, hg]
    · cases hi : pyInt a with
      | none =>
        have hg : get_bpbynumber s (PyArg.str a) =
            Except.error ("Non-numeric breakpoint number " ++ a) := by
          rw [get_bpbynumber, if_neg hf]
          simp only [hi]
        rw [hg]
        refine ⟨Or.inr (Or.inl ⟨a, rfl, hi⟩), ?_⟩
        rw [clear_bpbynumber, hg]
      | some i =>
        cases hx : pyIndex s.bpbynumber i with
        | none =>
          have hg : get_bpbynumber s (PyArg.str a) =
              Except.error "Breakpoint number out of range" := by
            rw [get_bpbynumber, if_neg hf]
            simp only [hi, hx]
          rw [hg]
          refine ⟨Or.inr (Or.inr (Or.inl ⟨a, i, rfl, hi, hx⟩)), ?_⟩
          rw [clear_bpbynumber, hg]
        | some x =>
          cases x with
          | none =>
            have hg : get_bpbynumber s (PyArg.str a) =
                Except.error "Breakpoint already deleted" := by
              rw [get_bpbynumber, if_neg hf]
              simp only [hi, hx]
            rw [hg]
            refine ⟨Or.inr (Or.inr (Or.inr ⟨a, i, rfl, hi, hx⟩)), ?_⟩
            rw [clear_bpbynumber, hg]
          | some bp =>
            have hg : get_bpbynumber s (PyArg.str a) = Except.ok bp := by
              rw [get_bpbynumber, if_neg hf]
              simp only [hi, hx]
            rw [hg]
            obtain ⟨h0, hlen, hslot⟩ := pyIndex_spec s.bpbynumber i _ hx
            obtain ⟨hnum, -⟩ := hInv.slots _ bp hslot
            have hf' : argFalsy (PyArg.str a) = false :=
              Bool.eq_false_iff.2 hf
            refine ⟨⟨a, i, rfl, hf', hi, hx, hnum, ?_⟩, ?_⟩
            · rw [hnum]
              exact hslot
            · have hslotn : slotGet s.bpbynumber bp.number = some bp := by
                rw [hnum]
                exact hslot
              obtain ⟨d1, d2, -, -, -⟩ :=
                deleteMe_spec s hInv bp.number bp hslotn
              exact ⟨by rw [clear_bpbynumber, hg], d1, d2⟩

/-! ### Concrete exemplar states -/

/-- A one-module program: `<module>` code with executable lines 1, 2 and 3
(lnotab `[4, 1, 4, 1]`) and no nested code objects. -/
def mcode : Code := Code.mk 1 "<module>" [4, 1, 4, 1] []

/-- Breakpoint number 1: a temporary, unconditional, enabled breakpoint at
line 2 of `f.py`, resolved to address `(1, 2)`. -/
def bp1c : BP := ⟨1, "f.py", 2, (1, 2), true, Option.none, true, 0, 0⟩

/-- The module breakpoints of `f.py`: number 1 registered under first line
1, actual line 2. -/
def mod1c : ModBpts := ⟨mcode, [], [(1, [(2, [1])])]⟩

/-- A debugger state holding the single live breakpoint `bp1c`. -/
def s0 : DbgState := ⟨2, [Option.none, some bp1c], [("f.py", mod1c)]⟩

/-- The initial debugger state: no breakpoints. -/
def sEmpty : DbgState := ⟨1, [Option.none], []⟩

/-- The loadable modules: `g.py` compiles to `mcode` with no tracked
functions. -/
def env0 : ModuleEnv := [("g.py", some (mcode, []))]

/-- A line event at address `(1, 2)` of `f.py` whose condition evaluator
returns a truthy value. -/
def fr0 : HitFrame := ⟨"f.py", 1, 2, fun _ => EvalResult.val true⟩

/-- A disabled breakpoint. -/
def bpDis : BP := ⟨1, "f.py", 2, (1, 2), false, Option.none, false, 0, 0⟩

/-- A stepping state with the global trace hook installed. -/
def st0 : StepBdb := ⟨(Option.none, 0), [], true⟩

theorem inv_s0 : Inv s0 := by
  refine ⟨rfl, ?_, ?_, by decide, by decide, by decide, by decide, by decide⟩
  · intro n bp h
    rcases n with _ | _ | k
    · have h' : (Option.none : Option BP) = some bp := h
      cases h'
    · have h' : (some bp1c : Option BP) = some bp := h
      have hb : bp1c = bp := by injection h'
      subst hb
      exact ⟨rfl, ("f.py", mod1c), List.mem_singleton.2 rfl, rfl,
        (1, [(2, [1])]), List.mem_singleton.2 rfl, rfl,
        (2, [1]), List.mem_singleton.2 rfl, rfl, List.mem_singleton.2 rfl⟩
    · have hz : slotGet s0.bpbynumber (k + 2) = Option.none := by
        show ([Option.none, some bp1c] : List (Option BP)).getD (k + 2)
          Option.none = Option.none
        rw [List.getD_cons_succ, List.getD_cons_succ]
        rfl
      rw [hz] at h
      cases h
  · intro p hp q hq r hr n hn
    have hp' := List.mem_singleton.1 hp
    subst hp'
    have hq' := List.mem_singleton.1 hq
    subst hq'
    have hr' := List.mem_singleton.1 hr
    subst hr'
    have hn' := List.mem_singleton.1 hn
    subst hn'
    exact ⟨bp1c, rfl, rfl, rfl⟩

theorem inv_sEmpty : Inv sEmpty := by
  refine ⟨rfl, ?_, ?_, by decide, by decide, by decide, by decide, by decide⟩
  · intro n bp h
    rcases n with _ | k
    · have h' : (Option.none : Option BP) = some bp := h
      cases h'
    · have hz : slotGet sEmpty.bpbynumber (k + 1) = Option.none := by
        show ([Option.none] : List (Option BP)).getD (k + 1) Option.none =
          Option.none
        rw [List.getD_cons_succ]
        rfl
      rw [hz] at h
      cases h
  · intro p hp
    cases hp

/-! ### Concrete evaluations of `_distance` -/

theorem subcodeDist_mcode_2 : subcodeDist 2 mcode = Option.none := by
  rw [subcodeDist]
  split
  next h => exact absurd (by decide) h
  next => rfl

theorem subcodeDist_mcode_10 : subcodeDist 10 mcode = Option.none := by
  rw [subcodeDist]
  split
  next h => exact absurd (by decide) h
  next => rfl

theorem pyDistance_mcode_2 : pyDistance 2 mcode true = some (0, 1, 2) := by
  rw [pyDistance, subcodeDist_mcode_2]
  decide

theorem pyDistance_mcode_10 : pyDistance 10 mcode true = Option.none := by
  rw [pyDistance, subcodeDist_mcode_10]
  decide

theorem get_actual_bp_mcode_2 :
    get_actual_bp (some mcode) 2 = Except.ok (1, 2) := by
  rw [get_actual_bp, pyDistance_mcode_2]

theorem get_actual_bp_mcode_10 :
    get_actual_bp (some mcode) 10 =
      Except.error "line is after the last valid statement" := by
  rw [get_actual_bp, pyDistance_mcode_10]

/-- `set_break_with` fails without touching the state when the line does
not resolve (no function-name argument given). -/
theorem set_break_with_err (s : DbgState) (filename : String) (m : ModBpts)
    (lineno : Nat) (temporary : Bool) (cond : Option String) (e : String)
    (h : get_actual_bp (some m.code) lineno = Except.error e) :
    set_break_with s filename m lineno temporary cond Option.none =
      (s, Except.error e) := by
  rw [set_break_with]
  simp [funcTruthy, h]

theorem set_break_env0_10 :
    set_break env0 sEmpty "g.py" 10 false Option.none Option.none =
      (sEmpty, Except.error "line is after the last valid statement") := by
  have h1 : set_break env0 sEmpty "g.py" 10 false Option.none Option.none =
      set_break_with sEmpty "g.py" ⟨mcode, [], []⟩ 10 false Option.none
        Option.none := rfl
  rw [h1]
  exact set_break_with_err sEmpty "g.py" ⟨mcode, [], []⟩ 10 false Option.none
    "line is after the last valid statement" get_actual_bp_mcode_10

/-! ### Witnesses -/

/-- Witness for C1: in `mcode`, line 2 resolves to address `(1, 2)`; the
actual line 2 is at or after the request and is an executable line of a
unit with first line 1. -/
theorem get_actual_bp_resolves_witness :
    2 ≤ 2 ∧ ∃ c ∈ allUnits mcode, 1 = c.co_firstlineno ∧
      2 ∈ code_line_numbers c :=
  get_actual_bp_resolves mcode 2 1 2 get_actual_bp_mcode_2

/-- Witness for C3: a hit on a disabled breakpoint is reported
`(false, false)` and the breakpoint (hits counter included) is unchanged. -/
theorem process_hit_event_char_witness :
    process_hit_event bpDis (fun _ => EvalResult.raises) =
      (bpDis, false, false) :=
  (process_hit_event_char bpDis (fun _ => EvalResult.raises)).1 rfl

/-- Witness for C4 at the concrete state `s0` and its breakpoint 1. -/
theorem breakpoint_indexes_agree_witness :
    bp1c.number = 1 ∧
    RegisteredAt s0 bp1c.file bp1c.actual_bp.1 bp1c.actual_bp.2 1 ∧
    slotGet (deleteMe s0 1).bpbynumber 1 = Option.none ∧
    ¬ RegisteredSomewhere (deleteMe s0 1) 1 ∧
    Inv (deleteMe s0 1) :=
  breakpoint_indexes_agree s0 inv_s0 1 bp1c rfl

/-- Witness for C5 at `s0`: after the qualifying hit `fr0`, the temporary
breakpoint 1 is gone from the by-number table and from the registry. -/
theorem temporary_breakpoint_lifecycle_witness :
    slotGet (break_event_round s0 fr0).bpbynumber 1 = Option.none ∧
    ¬ RegisteredSomewhere (break_event_round s0 fr0) 1 :=
  (temporary_breakpoint_lifecycle s0 fr0 inv_s0 1 bp1c rfl rfl rfl
    (by decide)).1 (Or.inl rfl) rfl

/-- Witness for C6 (amended) on the stack `[2, 1]` with bottom frame 1,
targeting the top frame 2 at line 5. -/
theorem stepping_commands_set_state_witness :
    (set_next [2, 1] (some 1) st0 2).stopframe_lno = (some 2, 0) ∧
    (set_until [2, 1] (some 1) st0 2 5 Option.none).stopframe_lno =
      (some 2, 5 + 1) ∧
    (set_until [2, 1] (some 1) st0 2 5 (some 7)).stopframe_lno =
      (some 2, 7) ∧
    (set_return [2, 1] (some 1) st0 2).stopframe_lno = (some 2, -1) :=
  stepping_commands_set_state [2, 1] (some 1) st0 2 5 7 (by decide)

/-- Witness for C7: with no breakpoint left, `set_continue` clears the
stepping state and removes the global trace hook. -/
theorem set_continue_teardown_witness :
    (set_continue [1] (some 1) sEmpty
      ⟨(some 1, 0), [1], true⟩).stopframe_lno = (Option.none, -1) ∧
    (set_continue [1] (some 1) sEmpty
      ⟨(some 1, 0), [1], true⟩).sysTrace = false := by
  have h := set_continue_teardown [1] (some 1) sEmpty
    ⟨(some 1, 0), [1], true⟩ inv_sEmpty
  exact ⟨h.1, (h.2.1 (by simp [HasLiveBp, sEmpty])).1⟩

/-- Witness for C8: the hit `fr0` on `s0` fires breakpoint 1 and reports
the lists `([1], [1])`, non-empty, sorted and complete. -/
theorem break_here_sorted_hits_witness :
    ([1] : List Nat) ≠ [] ∧ ([1] : List Nat).Sorted (· ≤ ·) ∧
    ([1] : List Nat).Sorted (· ≤ ·) ∧
    (∀ n, n ∈ ([1] : List Nat) ↔
      n ∈ bucketOf s0 fr0 ∧ demandsStop s0 fr0.ev n = true) ∧
    (∀ n, n ∈ ([1] : List Nat) ↔
      n ∈ bucketOf s0 fr0 ∧ tempDelete s0 fr0.ev n = true) :=
  (break_here_sorted_hits s0 fr0 inv_s0).2 [1] [1] (by decide)

/-- C9 (counterexample): in `s0` the only number ever assigned is 1, yet
`get_bpbynumber("-1")` raises no bad-breakpoint-reference error: Python's
negative list indexing wraps `-1` to the last slot, returning breakpoint 1
(whose number differs from the argument), and `clear_bpbynumber("-1")`
deletes it instead of reporting a failure. -/
theorem get_bpbynumber_negative_counterexample :
    get_bpbynumber s0 (PyArg.str "-1") = Except.ok bp1c ∧
    (clear_bpbynumber s0 (PyArg.str "-1")).2 = Option.none ∧
    bp1c.number = 1 :=
  ⟨rfl, rfl, rfl⟩

/-- Witness for C9 (amended) at `s0` with the in-range argument `"1"`:
`clear_bpbynumber` deletes breakpoint 1 from both indexes. -/
theorem get_clear_bpbynumber_spec_witness :
    clear_bpbynumber s0 (PyArg.str "1") = (deleteMe s0 1, Option.none) ∧
    slotGet (deleteMe s0 1).bpbynumber 1 = Option.none ∧
    ¬ RegisteredSomewhere (deleteMe s0 1) 1 := by
  have h := (get_clear_bpbynumber_spec s0 inv_s0 (PyArg.str "1")).2
  have hg : get_bpbynumber s0 (PyArg.str "1") = Except.ok bp1c := rfl
  rw [hg] at h
  exact h

/-- Witness for C10: `set_break` on line 10 of the three-line module
`g.py` fails and leaves the empty breakpoint state exactly as it was. -/
theorem set_break_error_leaves_state_witness :
    (set_break env0 sEmpty "g.py" 10 false Option.none
      Option.none).1.next = sEmpty.next ∧
    (set_break env0 sEmpty "g.py" 10 false Option.none
      Option.none).1.bpbynumber = sEmpty.bpbynumber ∧
    (set_break env0 sEmpty "g.py" 10 false Option.none
      Option.none).1.breakpoints = sEmpty.breakpoints :=
  set_break_error_leaves_state env0 sEmpty "g.py" 10 false Option.none
    Option.none "line is after the last valid statement"
    (by rw [set_break_env0_10])

end PdbClone
